import Mathlib

/-!
Verification of the streaming agent orchestrator of the ai-chatbot-api
repository.  The Python sources are shallowly embedded as Lean functions:

* `clean_citations`  — src/app/utils/citation_utils.py (four `re.sub` passes)
* `run_researcher`   — src/app/services/agent_service.py, `_run_researcher`
* `run_planner`      — src/app/services/agent_service.py, `_run_planner`
* `run_writer`       — src/app/services/agent_service.py, `_run_writer`
* `run_agent_workflow` — src/app/services/agent_service.py, the orchestrator

External collaborators (the Gemini provider, the search service, `json.loads`
and `json.dumps` from the standard library) are modelled as explicit inputs,
so every workflow path the Python code can take corresponds to a choice of
those inputs.
-/

/-! ## Citation normalizer (src/app/utils/citation_utils.py)

Each `re.sub` pass is embedded as a left-to-right scanner `scanF`.  The four
regex patterns start with a literal `[` (or `[`/`(` for the third pass), so a
match can only begin at such a character; on failure the scan advances one
character, on success it continues after the consumed text, exactly like
`re.sub`'s leftmost non-overlapping semantics.  Backtracking is vacuous for
these patterns (the greedy `\d+`/`\s+`/`(?:,\s*\d+)*` runs are followed by
required characters that cannot extend them), so a deterministic greedy parse
is faithful.  `\d` is embedded as `Char.isDigit` and `\s` as
`Char.isWhitespace`, which agree with Python on the ASCII text this utility
is written for.

The scanners consume a variable number of characters per step, so they are
defined structurally over a fuel argument; at least one character of input is
spent per step, hence `fuel = length` always suffices, and a fuel-irrelevance
lemma recovers clean recursion equations. -/

/-- The characters of the literal `#citation-`. -/
def citTag : List Char := "#citation-".data

/-- Greedy parse of `(?:,\s*\d+)*`: returns the digit groups read and the
unconsumed suffix. -/
def parseMoreF : Nat → List Char → List (List Char) × List Char
  | _, [] => ([], [])
  | 0, s => ([], s)
  | f+1, c :: cs =>
    if c = ',' then
      if ((cs.dropWhile Char.isWhitespace).takeWhile Char.isDigit) = [] then
        ([], c :: cs)
      else
        ((cs.dropWhile Char.isWhitespace).takeWhile Char.isDigit ::
            (parseMoreF f ((cs.dropWhile Char.isWhitespace).dropWhile Char.isDigit)).1,
          (parseMoreF f ((cs.dropWhile Char.isWhitespace).dropWhile Char.isDigit)).2)
    else ([], c :: cs)

/-- `(?:,\s*\d+)*` with always-sufficient fuel. -/
def parseMore (s : List Char) : List (List Char) × List Char :=
  parseMoreF s.length s

/-- Matcher for `\[(\d+(?:,\s*\d+)*)\](?!\()` positioned just after the `[`:
the captured digit groups and the suffix after the `]`. -/
def matchMulti (r : List Char) : Option (List (List Char) × List Char) :=
  if r.takeWhile Char.isDigit = [] then none
  else
    match (parseMore (r.dropWhile Char.isDigit)).2 with
    | ']' :: t =>
      if t.head? = some '(' then none
      else some (r.takeWhile Char.isDigit :: (parseMore (r.dropWhile Char.isDigit)).1, t)
    | _ => none

/-- `[n](#citation-n)`: one replacement piece of the first pass's lambda. -/
def citeLink (n : List Char) : List Char :=
  ('[' :: n) ++ (']' :: '(' :: citTag) ++ n ++ [')']

/-- `"".join(...)` over the split digit groups of the first pass. -/
def expandGroups : List (List Char) → List Char
  | [] => []
  | n :: ns => citeLink n ++ expandGroups ns

/-- Matcher for `\[(\d+)\](?!\()` positioned just after the `[`. -/
def matchSingle (r : List Char) : Option (List Char × List Char) :=
  if r.takeWhile Char.isDigit = [] then none
  else
    match r.dropWhile Char.isDigit with
    | ']' :: t =>
      if t.head? = some '(' then none else some (r.takeWhile Char.isDigit, t)
    | _ => none

/-- Strip a literal character sequence, returning the suffix on success. -/
def stripPfx : List Char → List Char → Option (List Char)
  | [], s => some s
  | _ :: _, [] => none
  | p :: ps, c :: cs => if c = p then stripPfx ps cs else none

/-- Matcher for `[\[\(]#citation-(\d+)[\]\)]` positioned just after the
opening bracket. -/
def matchMixed (r : List Char) : Option (List Char × List Char) :=
  match stripPfx citTag r with
  | none => none
  | some t =>
    if t.takeWhile Char.isDigit = [] then none
    else
      match t.dropWhile Char.isDigit with
      | b :: t' =>
        if b = ']' ∨ b = ')' then some (t.takeWhile Char.isDigit, t') else none
      | [] => none

/-- Matcher for `\[(\d+)\]\s+\(#citation-` positioned just after the `[`. -/
def matchSpaces (r : List Char) : Option (List Char × List Char) :=
  if r.takeWhile Char.isDigit = [] then none
  else
    match r.dropWhile Char.isDigit with
    | ']' :: t =>
      if t.takeWhile Char.isWhitespace = [] then none
      else
        match stripPfx ('(' :: citTag) (t.dropWhile Char.isWhitespace) with
        | some t' => some (r.takeWhile Char.isDigit, t')
        | none => none
    | _ => none

/-- Generic `re.sub` engine for a pattern that can only match right after a
trigger character: scan left to right, substitute at matches, advance one
character otherwise. -/
def scanF (trig : Char → Bool) (m : List Char → Option (ρ × List Char))
    (repl : ρ → List Char) : Nat → List Char → List Char
  | _, [] => []
  | 0, s => s
  | f+1, c :: rest =>
    if trig c then
      (m rest).elim (c :: scanF trig m repl f rest)
        (fun ar => repl ar.1 ++ scanF trig m repl f ar.2)
    else c :: scanF trig m repl f rest

/-- The scanner with always-sufficient fuel. -/
def scanS (trig : Char → Bool) (m : List Char → Option (ρ × List Char))
    (repl : ρ → List Char) (s : List Char) : List Char :=
  scanF trig m repl s.length s

/-- First pass: `[n1, n2, ...] -> [n1](#citation-n1)[n2](#citation-n2)...` -/
def subMulti (s : List Char) : List Char :=
  scanS (fun c => c == '[') matchMulti expandGroups s

/-- Second pass: `[n] -> [n](#citation-n)`. -/
def subSingle (s : List Char) : List Char :=
  scanS (fun c => c == '[') matchSingle citeLink s

/-- Third pass: `(#citation-n]`, `[#citation-n)`, `[#citation-n]`
all become `(#citation-n)`. -/
def subMixed (s : List Char) : List Char :=
  scanS (fun c => c == '[' || c == '(') matchMixed
    (fun d => ('(' :: citTag) ++ d ++ [')']) s

/-- Fourth pass: `[n] (#citation- -> [n](#citation-`. -/
def subSpaces (s : List Char) : List Char :=
  scanS (fun c => c == '[') matchSpaces
    (fun d => ('[' :: d) ++ (']' :: '(' :: citTag)) s

/-- Embedding of `clean_citations` (src/app/utils/citation_utils.py): the
four `re.sub` passes applied in order. -/
def clean_citations (s : String) : String :=
  String.mk (subSpaces (subMixed (subSingle (subMulti s.data))))

/-! ### Basic list lemmas -/

theorem length_dropWhile_le (p : Char → Bool) (l : List Char) :
    (l.dropWhile p).length ≤ l.length := by
  induction l with
  | nil => simp [List.dropWhile]
  | cons c cs ih =>
    rw [List.dropWhile_cons]
    split
    · exact Nat.le_succ_of_le ih
    · exact Nat.le_refl _

/-- Decomposing `takeWhile`/`dropWhile` over a prefix that satisfies the
predicate followed by a suffix whose head does not. -/
theorem takeWhile_pre (p : Char → Bool) (t : List Char)
    (ht : ∀ c, t.head? = some c → p c = false) :
    ∀ pre : List Char, (∀ c ∈ pre, p c = true) →
      (pre ++ t).takeWhile p = pre ∧ (pre ++ t).dropWhile p = t := by
  intro pre
  induction pre with
  | nil =>
    intro _
    cases t with
    | nil => exact ⟨rfl, rfl⟩
    | cons c cs =>
      have hc := ht c rfl
      exact ⟨by simp [List.takeWhile_cons, hc], by simp [List.dropWhile_cons, hc]⟩
  | cons a pre ih =>
    intro hp
    have ha : p a = true := hp a (by simp)
    have h2 := ih (fun c hc => hp c (by simp [hc]))
    exact ⟨by simp [List.takeWhile_cons, ha, h2.1],
      by simp [List.dropWhile_cons, ha, h2.2]⟩

theorem takeWhile_all (p : Char → Bool) :
    ∀ l : List Char, ∀ c ∈ l.takeWhile p, p c = true := by
  intro l
  induction l with
  | nil => intro c hc; simp [List.takeWhile] at hc
  | cons a l ih =>
    intro c hc
    rw [List.takeWhile_cons] at hc
    by_cases ha : p a = true
    · rw [if_pos ha] at hc
      rcases List.mem_cons.mp hc with h | h
      · exact h ▸ ha
      · exact ih c h
    · rw [if_neg ha] at hc
      exact absurd hc (List.not_mem_nil c)

theorem stripPfx_self (p : List Char) : ∀ s, stripPfx p (p ++ s) = some s := by
  induction p with
  | nil => intro s; rfl
  | cons a p ih => intro s; simpa [stripPfx] using ih s

theorem stripPfx_some (p : List Char) :
    ∀ s t, stripPfx p s = some t → s = p ++ t := by
  induction p with
  | nil =>
    intro s t h
    simpa [stripPfx] using (by simpa [stripPfx] using h : s = t)
  | cons a p ih =>
    intro s t h
    cases s with
    | nil => simp [stripPfx] at h
    | cons c cs =>
      rw [stripPfx] at h
      by_cases hc : c = a
      · rw [if_pos hc] at h
        simpa [hc] using congrArg (List.cons a) (ih cs t h)
      · rw [if_neg hc] at h
        exact absurd h (by simp)

/-! ### `parseMore` equations and bounds -/

theorem parseMoreF_nil (f : Nat) : parseMoreF f [] = ([], []) := by
  cases f <;> rfl

theorem parseMoreF_len : ∀ (f : Nat) (s : List Char),
    (parseMoreF f s).2.length ≤ s.length := by
  intro f
  induction f with
  | zero => intro s; cases s <;> simp [parseMoreF]
  | succ f ih =>
    intro s
    cases s with
    | nil => simp [parseMoreF_nil]
    | cons c cs =>
      simp only [parseMoreF]
      split
      · split
        · simp
        · refine Nat.le_trans (ih _) (Nat.le_trans ?_ (Nat.le_succ _))
          exact Nat.le_trans (length_dropWhile_le _ _) (length_dropWhile_le _ _)
      · exact Nat.le_refl _

theorem parseMoreF_congr : ∀ (f g : Nat) (s : List Char),
    s.length ≤ f → s.length ≤ g → parseMoreF f s = parseMoreF g s := by
  intro f
  induction f with
  | zero =>
    intro g s hf _
    have hs : s = [] := List.eq_nil_of_length_eq_zero (Nat.le_zero.mp hf)
    subst hs
    rw [parseMoreF_nil, parseMoreF_nil]
  | succ f ih =>
    intro g s hf hg
    cases s with
    | nil => rw [parseMoreF_nil, parseMoreF_nil]
    | cons c cs =>
      cases g with
      | zero => simp at hg
      | succ g =>
        have hf2 : cs.length ≤ f := by simpa using hf
        have hg2 : cs.length ≤ g := by simpa using hg
        have hX : ((cs.dropWhile Char.isWhitespace).dropWhile Char.isDigit).length ≤
            cs.length :=
          Nat.le_trans (length_dropWhile_le _ _) (length_dropWhile_le _ _)
        simp only [parseMoreF]
        rw [ih g ((cs.dropWhile Char.isWhitespace).dropWhile Char.isDigit)
          (Nat.le_trans hX hf2) (Nat.le_trans hX hg2)]

theorem parseMore_nil : parseMore [] = ([], []) := rfl

theorem parseMore_cons (c : Char) (cs : List Char) :
    parseMore (c :: cs) =
      if c = ',' then
        if ((cs.dropWhile Char.isWhitespace).takeWhile Char.isDigit) = [] then
          ([], c :: cs)
        else
          ((cs.dropWhile Char.isWhitespace).takeWhile Char.isDigit ::
              (parseMore ((cs.dropWhile Char.isWhitespace).dropWhile Char.isDigit)).1,
            (parseMore ((cs.dropWhile Char.isWhitespace).dropWhile Char.isDigit)).2)
      else ([], c :: cs) := by
  show parseMoreF (cs.length + 1) (c :: cs) = _
  simp only [parseMoreF]
  rw [parseMoreF_congr cs.length
    ((cs.dropWhile Char.isWhitespace).dropWhile Char.isDigit).length _
    (Nat.le_trans (length_dropWhile_le _ _) (length_dropWhile_le _ _))
    (Nat.le_refl _)]
  rfl

theorem parseMore_len (s : List Char) : (parseMore s).2.length ≤ s.length :=
  parseMoreF_len _ _

theorem parseMoreF_sound : ∀ (f : Nat) (s : List Char),
    ∀ n ∈ (parseMoreF f s).1, n ≠ [] ∧ ∀ c ∈ n, Char.isDigit c = true := by
  intro f
  induction f with
  | zero => intro s; cases s <;> simp [parseMoreF]
  | succ f ih =>
    intro s
    cases s with
    | nil => simp [parseMoreF_nil]
    | cons c cs =>
      simp only [parseMoreF]
      split
      · split
        · simp
        · next hd =>
          intro n hn
          rcases List.mem_cons.mp hn with h | h
          · subst h
            exact ⟨hd, fun c hc => takeWhile_all _ _ c hc⟩
          · exact ih _ n h
      · simp

theorem parseMore_sound (s : List Char) :
    ∀ n ∈ (parseMore s).1, n ≠ [] ∧ ∀ c ∈ n, Char.isDigit c = true :=
  parseMoreF_sound _ _

/-! ### Matcher bounds and soundness -/

theorem matchMulti_length : ∀ (r : List Char) (ns : List (List Char)) (t : List Char),
    matchMulti r = some (ns, t) → t.length < r.length := by
  intro r ns t h
  unfold matchMulti at h
  split at h
  · exact absurd h (by simp)
  · next hd =>
    split at h
    · next t₀ heq =>
      split at h
      · exact absurd h (by simp)
      · simp only [Option.some.injEq, Prod.mk.injEq] at h
        obtain ⟨-, h2⟩ := h
        subst h2
        have hlen1 : (']' :: t₀).length ≤ (r.dropWhile Char.isDigit).length := by
          rw [← heq]; exact parseMore_len _
        have hlen2 : 0 < (r.takeWhile Char.isDigit).length :=
          List.length_pos.mpr hd
        have hr : r.length =
            (r.takeWhile Char.isDigit).length + (r.dropWhile Char.isDigit).length := by
          conv_lhs => rw [← List.takeWhile_append_dropWhile Char.isDigit r]
          rw [List.length_append]
        simp only [List.length_cons] at hlen1
        omega
    · exact absurd h (by simp)

theorem matchMulti_sound (r : List Char) (ns : List (List Char)) (t : List Char)
    (h : matchMulti r = some (ns, t)) :
    ns ≠ [] ∧ ∀ n ∈ ns, n ≠ [] ∧ ∀ c ∈ n, Char.isDigit c = true := by
  unfold matchMulti at h
  split at h
  · exact absurd h (by simp)
  · next hd =>
    split at h
    · next t₀ heq =>
      split at h
      · exact absurd h (by simp)
      · simp only [Option.some.injEq, Prod.mk.injEq] at h
        obtain ⟨h1, -⟩ := h
        subst h1
        refine ⟨by simp, ?_⟩
        intro n hn
        rcases List.mem_cons.mp hn with h | h
        · subst h
          exact ⟨hd, fun c hc => takeWhile_all _ _ c hc⟩
        · exact parseMore_sound _ n h
    · exact absurd h (by simp)

theorem matchSingle_length : ∀ (r : List Char) (d t : List Char),
    matchSingle r = some (d, t) → t.length < r.length := by
  intro r d t h
  unfold matchSingle at h
  split at h
  · exact absurd h (by simp)
  · next hd =>
    split at h
    · next t₀ heq =>
      split at h
      · exact absurd h (by simp)
      · simp only [Option.some.injEq, Prod.mk.injEq] at h
        obtain ⟨-, h2⟩ := h
        subst h2
        have hlen2 : 0 < (r.takeWhile Char.isDigit).length :=
          List.length_pos.mpr hd
        have hr : r.length =
            (r.takeWhile Char.isDigit).length + (r.dropWhile Char.isDigit).length := by
          conv_lhs => rw [← List.takeWhile_append_dropWhile Char.isDigit r]
          rw [List.length_append]
        have : (r.dropWhile Char.isDigit).length = (']' :: t₀).length := by rw [heq]
        simp only [List.length_cons] at this
        omega
    · exact absurd h (by simp)

theorem matchSingle_sound (r : List Char) (d t : List Char)
    (h : matchSingle r = some (d, t)) :
    d ≠ [] ∧ (∀ c ∈ d, Char.isDigit c = true) ∧
      r.dropWhile Char.isDigit = ']' :: t ∧ d = r.takeWhile Char.isDigit ∧
      t.head? ≠ some '(' := by
  unfold matchSingle at h
  split at h
  · exact absurd h (by simp)
  · next hd =>
    split at h
    · next t₀ heq =>
      split at h
      · exact absurd h (by simp)
      · next hla =>
        simp only [Option.some.injEq, Prod.mk.injEq] at h
        obtain ⟨h1, h2⟩ := h
        subst h1; subst h2
        exact ⟨hd, fun c hc => takeWhile_all _ _ c hc, heq, rfl, hla⟩
    · exact absurd h (by simp)

theorem matchMixed_length : ∀ (r : List Char) (d t : List Char),
    matchMixed r = some (d, t) → t.length < r.length := by
  intro r d t h
  unfold matchMixed at h
  split at h
  · exact absurd h (by simp)
  · next t₁ hstrip =>
    split at h
    · exact absurd h (by simp)
    · next hd =>
      split at h
      · next b t' heq =>
        split at h
        · simp only [Option.some.injEq, Prod.mk.injEq] at h
          obtain ⟨-, h2⟩ := h
          subst h2
          have hr1 : r = citTag ++ t₁ := stripPfx_some _ _ _ hstrip
          have hlen2 : 0 < (t₁.takeWhile Char.isDigit).length :=
            List.length_pos.mpr hd
          have ht1 : t₁.length =
              (t₁.takeWhile Char.isDigit).length + (t₁.dropWhile Char.isDigit).length := by
            conv_lhs => rw [← List.takeWhile_append_dropWhile Char.isDigit t₁]
            rw [List.length_append]
          have : (t₁.dropWhile Char.isDigit).length = (b :: t').length := by rw [heq]
          have hrlen : r.length = citTag.length + t₁.length := by
            rw [hr1, List.length_append]
          simp only [List.length_cons] at this
          omega
        · exact absurd h (by simp)
      · exact absurd h (by simp)

theorem matchMixed_sound (r : List Char) (d t : List Char)
    (h : matchMixed r = some (d, t)) :
    ∃ b, (b = ']' ∨ b = ')') ∧ r = citTag ++ (d ++ b :: t) ∧
      d ≠ [] ∧ ∀ c ∈ d, Char.isDigit c = true := by
  unfold matchMixed at h
  split at h
  · exact absurd h (by simp)
  · next t₁ hstrip =>
    split at h
    · exact absurd h (by simp)
    · next hd =>
      split at h
      · next b t' heq =>
        split at h
        · next hb =>
          simp only [Option.some.injEq, Prod.mk.injEq] at h
          obtain ⟨h1, h2⟩ := h
          subst h1; subst h2
          refine ⟨b, hb, ?_, hd, fun c hc => takeWhile_all _ _ c hc⟩
          have hr1 : r = citTag ++ t₁ := stripPfx_some _ _ _ hstrip
          rw [hr1, ← heq, List.takeWhile_append_dropWhile]
        · exact absurd h (by simp)
      · exact absurd h (by simp)

theorem matchSpaces_length : ∀ (r : List Char) (d t : List Char),
    matchSpaces r = some (d, t) → t.length < r.length := by
  intro r d t h
  unfold matchSpaces at h
  split at h
  · exact absurd h (by simp)
  · next hd =>
    split at h
    · next t₀ heq =>
      split at h
      · exact absurd h (by simp)
      · next hw =>
        split at h
        · next t' hstrip =>
          simp only [Option.some.injEq, Prod.mk.injEq] at h
          obtain ⟨-, h2⟩ := h
          subst h2
          have h1 : t₀.dropWhile Char.isWhitespace = ('(' :: citTag) ++ t' :=
            stripPfx_some _ _ _ hstrip
          have h2 : t₀.length =
              (t₀.takeWhile Char.isWhitespace).length +
                (t₀.dropWhile Char.isWhitespace).length := by
            conv_lhs => rw [← List.takeWhile_append_dropWhile Char.isWhitespace t₀]
            rw [List.length_append]
          have h3 : (t₀.dropWhile Char.isWhitespace).length =
              ('(' :: citTag).length + t'.length := by rw [h1, List.length_append]
          have h4 : 0 < (t₀.takeWhile Char.isWhitespace).length :=
            List.length_pos.mpr hw
          have h5 : (r.dropWhile Char.isDigit).length = (']' :: t₀).length := by rw [heq]
          have hlen2 : 0 < (r.takeWhile Char.isDigit).length :=
            List.length_pos.mpr hd
          have hr : r.length =
              (r.takeWhile Char.isDigit).length + (r.dropWhile Char.isDigit).length := by
            conv_lhs => rw [← List.takeWhile_append_dropWhile Char.isDigit r]
            rw [List.length_append]
          simp only [List.length_cons] at h5
          omega
        · exact absurd h (by simp)
    · exact absurd h (by simp)

/-! ### Generic scanner lemmas -/

section Scan

variable {ρ : Type} (trig : Char → Bool) (m : List Char → Option (ρ × List Char))
variable (repl : ρ → List Char)

theorem scanF_nil (f : Nat) : scanF trig m repl f [] = [] := by
  cases f <;> rfl

theorem scanF_congr
    (hm : ∀ r a r', m r = some (a, r') → r'.length < r.length) :
    ∀ (f g : Nat) (s : List Char), s.length ≤ f → s.length ≤ g →
    scanF trig m repl f s = scanF trig m repl g s := by
  intro f
  induction f with
  | zero =>
    intro g s hf _
    have hs : s = [] := List.eq_nil_of_length_eq_zero (Nat.le_zero.mp hf)
    subst hs
    rw [scanF_nil, scanF_nil]
  | succ f ih =>
    intro g s hf hg
    cases s with
    | nil => rw [scanF_nil, scanF_nil]
    | cons c cs =>
      cases g with
      | zero => simp at hg
      | succ g =>
        have hf2 : cs.length ≤ f := by simpa using hf
        have hg2 : cs.length ≤ g := by simpa using hg
        simp only [scanF]
        cases hmc : m cs with
        | none =>
          simp only [Option.elim_none]
          rw [ih g cs hf2 hg2]
        | some ar =>
          obtain ⟨a, r'⟩ := ar
          have hr' : r'.length < cs.length := hm cs a r' hmc
          simp only [Option.elim_some]
          rw [ih g cs hf2 hg2,
            ih g r' (Nat.le_of_lt (Nat.lt_of_lt_of_le hr' hf2))
              (Nat.le_of_lt (Nat.lt_of_lt_of_le hr' hg2))]

theorem scanS_nil : scanS trig m repl [] = [] := rfl

theorem scanS_cons
    (hm : ∀ r a r', m r = some (a, r') → r'.length < r.length)
    (c : Char) (cs : List Char) :
    scanS trig m repl (c :: cs) =
      if trig c then
        (m cs).elim (c :: scanS trig m repl cs)
          (fun ar => repl ar.1 ++ scanS trig m repl ar.2)
      else c :: scanS trig m repl cs := by
  show scanF trig m repl (cs.length + 1) (c :: cs) = _
  simp only [scanF]
  cases hmc : m cs with
  | none => rfl
  | some ar =>
    obtain ⟨a, r'⟩ := ar
    have hr' : r'.length < cs.length := hm cs a r' hmc
    simp only [Option.elim_some]
    rw [scanF_congr trig m repl hm cs.length r'.length r' (Nat.le_of_lt hr')
      (Nat.le_refl _)]
    rfl

theorem scanS_append_no_trig
    (hm : ∀ r a r', m r = some (a, r') → r'.length < r.length)
    (t : List Char) :
    ∀ pre : List Char, (∀ c ∈ pre, trig c = false) →
      scanS trig m repl (pre ++ t) = pre ++ scanS trig m repl t := by
  intro pre
  induction pre with
  | nil => intro _; rfl
  | cons a pre ih =>
    intro hpre
    have ha : trig a = false := hpre a (by simp)
    rw [List.cons_append, scanS_cons trig m repl hm, if_neg (by simp [ha]),
      ih (fun c hc => hpre c (by simp [hc])), List.cons_append]

end Scan

/-- No position of `s` admits a match of `m` right after a trigger
character: the scanner leaves such a string unchanged. -/
def noHitAux (trig : Char → Bool) (m : List Char → Option (ρ × List Char)) :
    List Char → Bool
  | [] => true
  | c :: rest => (!(trig c) || (m rest).isNone) && noHitAux trig m rest

section NoHit

variable {ρ : Type} (trig : Char → Bool) (m : List Char → Option (ρ × List Char))
variable (repl : ρ → List Char)

theorem noHitAux_cons (c : Char) (rest : List Char) :
    noHitAux trig m (c :: rest) =
      ((!(trig c) || (m rest).isNone) && noHitAux trig m rest) := rfl

theorem scanS_eq_self_of_noHit
    (hm : ∀ r a r', m r = some (a, r') → r'.length < r.length) :
    ∀ s, noHitAux trig m s = true → scanS trig m repl s = s := by
  intro s
  induction s with
  | nil => intro _; rfl
  | cons c cs ih =>
    intro h
    rw [noHitAux_cons, Bool.and_eq_true] at h
    rw [scanS_cons trig m repl hm]
    by_cases htr : trig c = true
    · have hnone : (m cs).isNone = true := by
        rcases Bool.or_eq_true_iff.mp h.1 with h1 | h1
        · rw [htr] at h1; simp at h1
        · exact h1
      cases hmc : m cs with
      | none => rw [if_pos htr, Option.elim_none, ih h.2]
      | some ar => rw [hmc] at hnone; simp at hnone
    · have htr' : trig c = false := by simpa using htr
      rw [if_neg (by simp [htr']), ih h.2]

theorem noHitAux_append_no_trig (t : List Char) :
    ∀ pre : List Char, (∀ c ∈ pre, trig c = false) →
      noHitAux trig m (pre ++ t) = noHitAux trig m t := by
  intro pre
  induction pre with
  | nil => intro _; rfl
  | cons a pre ih =>
    intro hpre
    have ha : trig a = false := hpre a (by simp)
    rw [List.cons_append, noHitAux_cons, ha,
      ih (fun c hc => hpre c (by simp [hc]))]
    simp

theorem noHitAux_suffix :
    ∀ a b : List Char, noHitAux trig m (a ++ b) = true → noHitAux trig m b = true := by
  intro a
  induction a with
  | nil => intro b h; exact h
  | cons c a ih =>
    intro b h
    rw [List.cons_append, noHitAux_cons, Bool.and_eq_true] at h
    exact ih b h.2

end NoHit

theorem noHitAux_of_imp {ρ₁ ρ₂ : Type} (trig₁ trig₂ : Char → Bool)
    (m₁ : List Char → Option (ρ₁ × List Char))
    (m₂ : List Char → Option (ρ₂ × List Char))
    (himp : ∀ r, m₁ r = none → m₂ r = none)
    (htr : ∀ c, trig₂ c = true → trig₁ c = true) :
    ∀ s, noHitAux trig₁ m₁ s = true → noHitAux trig₂ m₂ s = true := by
  intro s
  induction s with
  | nil => intro _; rfl
  | cons c cs ih =>
    intro h
    rw [noHitAux_cons, Bool.and_eq_true] at h
    rw [noHitAux_cons, Bool.and_eq_true]
    refine ⟨?_, ih h.2⟩
    by_cases htc : trig₂ c = true
    · have h1 : trig₁ c = true := htr c htc
      rcases Bool.or_eq_true_iff.mp h.1 with h2 | h2
      · rw [h1] at h2; simp at h2
      · have : m₁ cs = none := by
          cases hm1 : m₁ cs
          · rfl
          · rw [hm1] at h2; simp at h2
        rw [himp cs this]
        simp
    · have : trig₂ c = false := by simpa using htc
      rw [this]
      simp

/-! ### Per-pass recursion equations and structure lemmas -/

theorem dropWhile_head (p : Char → Bool) :
    ∀ (l : List Char) (c : Char), (l.dropWhile p).head? = some c → p c = false := by
  intro l
  induction l with
  | nil => intro c hc; simp [List.dropWhile] at hc
  | cons a l ih =>
    intro c hc
    rw [List.dropWhile_cons] at hc
    by_cases ha : p a = true
    · rw [if_pos ha] at hc
      exact ih c hc
    · rw [if_neg ha] at hc
      have : a = c := by simpa using hc
      subst this
      simpa using ha

theorem subMulti_nil : subMulti [] = [] := rfl

theorem subMulti_cons (c : Char) (cs : List Char) :
    subMulti (c :: cs) =
      if c = '[' then
        (matchMulti cs).elim (c :: subMulti cs)
          (fun ar => expandGroups ar.1 ++ subMulti ar.2)
      else c :: subMulti cs := by
  rw [subMulti, scanS_cons _ _ _ matchMulti_length]
  by_cases hc : c = '['
  · rw [if_pos (by simp [hc]), if_pos hc]
    rfl
  · rw [if_neg (by simp [hc]), if_neg hc]
    rfl

theorem subSingle_nil : subSingle [] = [] := rfl

theorem subSingle_cons (c : Char) (cs : List Char) :
    subSingle (c :: cs) =
      if c = '[' then
        (matchSingle cs).elim (c :: subSingle cs)
          (fun ar => citeLink ar.1 ++ subSingle ar.2)
      else c :: subSingle cs := by
  rw [subSingle, scanS_cons _ _ _ matchSingle_length]
  by_cases hc : c = '['
  · rw [if_pos (by simp [hc]), if_pos hc]
    rfl
  · rw [if_neg (by simp [hc]), if_neg hc]
    rfl

theorem subMixed_nil : subMixed [] = [] := rfl

theorem subMixed_cons (c : Char) (cs : List Char) :
    subMixed (c :: cs) =
      if c = '[' ∨ c = '(' then
        (matchMixed cs).elim (c :: subMixed cs)
          (fun ar => ('(' :: citTag) ++ ar.1 ++ [')'] ++ subMixed ar.2)
      else c :: subMixed cs := by
  rw [subMixed, scanS_cons _ _ _ matchMixed_length]
  by_cases hc : c = '[' ∨ c = '('
  · rw [if_pos (by simp [hc]), if_pos hc]
    cases hmm : matchMixed cs with
    | none => rfl
    | some ar => simp [Option.elim_some, subMixed]
  · rw [if_neg ?neg, if_neg hc]
    · rfl
    case neg =>
      simp only [Bool.or_eq_true, beq_iff_eq]
      exact hc

theorem subSpaces_nil : subSpaces [] = [] := rfl

theorem subSpaces_cons (c : Char) (cs : List Char) :
    subSpaces (c :: cs) =
      if c = '[' then
        (matchSpaces cs).elim (c :: subSpaces cs)
          (fun ar => ('[' :: ar.1) ++ (']' :: '(' :: citTag) ++ subSpaces ar.2)
      else c :: subSpaces cs := by
  rw [subSpaces, scanS_cons _ _ _ matchSpaces_length]
  by_cases hc : c = '['
  · rw [if_pos (by simp [hc]), if_pos hc]
    rfl
  · rw [if_neg (by simp [hc]), if_neg hc]
    rfl

theorem subMulti_head (c : Char) (rest : List Char) :
    (subMulti (c :: rest)).head? = some c := by
  rw [subMulti_cons]
  by_cases hc : c = '['
  · rw [if_pos hc]
    cases hmm : matchMulti rest with
    | none => rfl
    | some ar =>
      obtain ⟨ns, r'⟩ := ar
      obtain ⟨hne, -⟩ := matchMulti_sound rest ns r' hmm
      simp only [Option.elim_some]
      cases ns with
      | nil => exact absurd rfl hne
      | cons d ns' =>
        subst hc
        simp [expandGroups, citeLink]
  · rw [if_neg hc]; rfl

/-- `subMulti` leaves a `p`-prefix in place and commutes with splitting at
it, whenever `[` does not satisfy `p`. -/
theorem subMulti_takeWhile_aux (p : Char → Bool) (hp : p '[' = false)
    (t : List Char) (ht : ∀ c, t.head? = some c → p c = false) :
    ∀ pre : List Char, (∀ c ∈ pre, p c = true) →
      (subMulti (pre ++ t)).takeWhile p = pre ∧
        (subMulti (pre ++ t)).dropWhile p = subMulti t := by
  intro pre hpre
  have hnotrig : ∀ c ∈ pre, (fun c => c == '[') c = false := by
    intro c hc
    by_cases h : c = '['
    · subst h
      exact absurd (hpre '[' hc) (by simp [hp])
    · simp [h]
  have hA : subMulti (pre ++ t) = pre ++ subMulti t :=
    scanS_append_no_trig _ _ _ matchMulti_length t pre hnotrig
  rw [hA]
  apply takeWhile_pre p (subMulti t) ?head pre hpre
  case head =>
    intro c hc
    cases t with
    | nil => rw [subMulti_nil] at hc; simp at hc
    | cons a t' =>
      rw [subMulti_head] at hc
      have : a = c := by simpa using hc
      subst this
      exact ht a rfl

theorem subMulti_takeWhile (p : Char → Bool) (hp : p '[' = false) (r : List Char) :
    (subMulti r).takeWhile p = r.takeWhile p ∧
      (subMulti r).dropWhile p = subMulti (r.dropWhile p) := by
  have h := subMulti_takeWhile_aux p hp (r.dropWhile p) (dropWhile_head p r)
    (r.takeWhile p) (takeWhile_all p r)
  rw [List.takeWhile_append_dropWhile] at h
  exact h

theorem head?_some_shape : ∀ (l : List Char) (c : Char),
    l.head? = some c → ∃ xs, l = c :: xs := by
  intro l c h
  cases l with
  | nil => simp at h
  | cons a as =>
    have ha : a = c := by simpa using h
    exact ⟨as, by rw [ha]⟩

/-- `parseMore` reads the same groups through `subMulti`: the scanned
`,`/whitespace/digit region contains no `[` and is copied verbatim, and the
character at which the parse stops is preserved. -/
theorem subMulti_parseMore : ∀ (n : Nat) (s : List Char), s.length ≤ n →
    parseMore (subMulti s) = ((parseMore s).1, subMulti (parseMore s).2) := by
  intro n
  induction n with
  | zero =>
    intro s hs
    have : s = [] := List.eq_nil_of_length_eq_zero (Nat.le_zero.mp hs)
    subst this
    rfl
  | succ n ih =>
    intro s hs
    cases s with
    | nil => rfl
    | cons c cs =>
      by_cases hc : c = ','
      · subst hc
        have h1 : subMulti (',' :: cs) = ',' :: subMulti cs := by
          rw [subMulti_cons, if_neg (by decide)]
        obtain ⟨hw1, hw2⟩ := subMulti_takeWhile Char.isWhitespace (by decide) cs
        obtain ⟨hd1, hd2⟩ :=
          subMulti_takeWhile Char.isDigit (by decide) (cs.dropWhile Char.isWhitespace)
        rw [h1, parseMore_cons, parseMore_cons, if_pos rfl, if_pos rfl,
          hw2, hd1, hd2]
        by_cases hdd : (cs.dropWhile Char.isWhitespace).takeWhile Char.isDigit = []
        · rw [if_pos hdd, if_pos hdd, h1]
        · rw [if_neg hdd, if_neg hdd]
          have hXlen :
              ((cs.dropWhile Char.isWhitespace).dropWhile Char.isDigit).length ≤ n := by
            have h3 : ((cs.dropWhile Char.isWhitespace).dropWhile Char.isDigit).length ≤
                cs.length :=
              Nat.le_trans (length_dropWhile_le _ _) (length_dropWhile_le _ _)
            have h4 : cs.length ≤ n := by simpa using hs
            exact Nat.le_trans h3 h4
          rw [ih _ hXlen]
      · obtain ⟨xs, hsm⟩ := head?_some_shape _ c (subMulti_head c cs)
        rw [hsm, parseMore_cons, parseMore_cons, if_neg hc, if_neg hc, ← hsm]

theorem subMulti_parseMore' (s : List Char) :
    parseMore (subMulti s) = ((parseMore s).1, subMulti (parseMore s).2) :=
  subMulti_parseMore s.length s (Nat.le_refl _)

/-- Inversion of a failed first-pass match: which stage of the pattern
failed. -/
theorem matchMulti_none_inv (r : List Char) (h : matchMulti r = none) :
    r.takeWhile Char.isDigit = [] ∨
    (parseMore (r.dropWhile Char.isDigit)).2 = [] ∨
    (∃ y ys, (parseMore (r.dropWhile Char.isDigit)).2 = y :: ys ∧ y ≠ ']') ∨
    (∃ ys, (parseMore (r.dropWhile Char.isDigit)).2 = ']' :: ys ∧
      ys.head? = some '(') := by
  unfold matchMulti at h
  split at h
  · next hd => exact Or.inl hd
  · next hd =>
    split at h
    · next t heq =>
      split at h
      · next hla => exact Or.inr (Or.inr (Or.inr ⟨t, heq, hla⟩))
      · simp at h
    · next hne =>
      cases hp : (parseMore (r.dropWhile Char.isDigit)).2 with
      | nil => exact Or.inr (Or.inl rfl)
      | cons y ys =>
        refine Or.inr (Or.inr (Or.inl ⟨y, ys, rfl, ?_⟩))
        intro hy
        subst hy
        exact hne ys hp

/-- A failed first-pass match stays failed after the first pass has rewritten
the rest of the string. -/
theorem matchMulti_none_subMulti (r : List Char) (h : matchMulti r = none) :
    matchMulti (subMulti r) = none := by
  obtain ⟨hd1, hd2⟩ := subMulti_takeWhile Char.isDigit (by decide) r
  have hinv := matchMulti_none_inv r h
  unfold matchMulti
  rw [hd1]
  by_cases hdd : r.takeWhile Char.isDigit = []
  · rw [if_pos hdd]
  · rw [if_neg hdd, hd2, subMulti_parseMore']
    dsimp only
    rcases hinv with hdd' | hnil | ⟨y, ys, hp, hy⟩ | ⟨ys, hp, hla⟩
    · exact absurd hdd' hdd
    · rw [hnil, subMulti_nil]
    · rw [hp]
      obtain ⟨xs, hsm⟩ := head?_some_shape _ y (subMulti_head y ys)
      rw [hsm]
      split
      · next t heq2 =>
        injection heq2 with h1 h2
        exact absurd h1 hy
      · rfl
    · rw [hp]
      have h2 : subMulti (']' :: ys) = ']' :: subMulti ys := by
        rw [subMulti_cons, if_neg (by decide)]
      rw [h2]
      obtain ⟨zs, hys⟩ := head?_some_shape ys '(' hla
      have h3 : subMulti ('(' :: zs) = '(' :: subMulti zs := by
        rw [subMulti_cons, if_neg (by decide)]
      rw [hys, h3]
      simp

/-! ### Strings with no bare bracket citation

`noBare s` says no position of `s` carries a match of the first pass's
pattern.  The first pass establishes it, the third pass preserves it, and the
second and fourth passes are the identity on such strings. -/

def noBare (s : List Char) : Bool :=
  noHitAux (fun c => c == '[') matchMulti s

theorem noBare_subMulti_id (s : List Char) (h : noBare s = true) :
    subMulti s = s :=
  scanS_eq_self_of_noHit _ _ _ matchMulti_length s h

theorem citTag_no_bracket : ∀ c ∈ citTag, (c == '[') = false := by decide

/-- The head of `citeLink n`'s tail region blocks any further first-pass
match: the `(` of the inserted link target sits right after the `]`. -/
theorem matchMulti_citeLink_tail (n X : List Char) (hne : n ≠ [])
    (hdig : ∀ c ∈ n, Char.isDigit c = true) :
    matchMulti (n ++ ']' :: '(' :: (citTag ++ n ++ [')'] ++ X)) = none := by
  obtain ⟨htk, hdr⟩ := takeWhile_pre Char.isDigit
    (']' :: '(' :: (citTag ++ n ++ [')'] ++ X)) (by intro c hc; simp at hc; subst hc; decide)
    n hdig
  unfold matchMulti
  rw [htk, if_neg hne, hdr, parseMore_cons, if_neg (by decide)]
  dsimp only
  split
  · next t heq =>
    injection heq with h1 h2
    subst h2
    simp
  · next hne2 => exact absurd rfl (hne2 _)

/-- Scanning `citeLink n ++ X` for first-pass matches reduces to scanning
`X`. -/
theorem noBare_citeLink (n X : List Char) (hne : n ≠ [])
    (hdig : ∀ c ∈ n, Char.isDigit c = true) :
    noBare (citeLink n ++ X) = noBare X := by
  have h1 : citeLink n ++ X =
      '[' :: (n ++ ']' :: '(' :: (citTag ++ n ++ [')'] ++ X)) := by
    simp [citeLink]
  have h2 : ∀ c ∈ n ++ ']' :: '(' :: citTag, ((c == '[') : Bool) = false := by
    intro c hc
    rcases List.mem_append.mp hc with hcn | hctail
    · have := hdig c hcn
      by_cases hcb : c = '['
      · subst hcb; simp at this
      · simp [hcb]
    · rcases List.mem_cons.mp hctail with h | h
      · subst h; decide
      · rcases List.mem_cons.mp h with h | h
        · subst h; decide
        · exact citTag_no_bracket c h
  have h4 : ∀ c ∈ n ++ [')'], ((c == '[') : Bool) = false := by
    intro c hc
    rcases List.mem_append.mp hc with hcn | hctail
    · have := hdig c hcn
      by_cases hcb : c = '['
      · subst hcb; simp at this
      · simp [hcb]
    · have : c = ')' := by simpa using hctail
      subst this; decide
  have h3 : n ++ ']' :: '(' :: (citTag ++ n ++ [')'] ++ X) =
      (n ++ ']' :: '(' :: citTag) ++ ((n ++ [')']) ++ X) := by
    simp
  rw [h1, noBare, noHitAux_cons, matchMulti_citeLink_tail n X hne hdig, h3,
    noHitAux_append_no_trig _ _ _ _ h2, noHitAux_append_no_trig _ _ _ _ h4]
  simp [noBare]

theorem noBare_expandGroups (ns : List (List Char))
    (hns : ∀ n ∈ ns, n ≠ [] ∧ ∀ c ∈ n, Char.isDigit c = true) :
    ∀ X, noBare (expandGroups ns ++ X) = noBare X := by
  induction ns with
  | nil => intro X; rfl
  | cons n ns ih =>
    intro X
    have hn := hns n (by simp)
    rw [expandGroups, List.append_assoc,
      noBare_citeLink n (expandGroups ns ++ X) hn.1 hn.2,
      ih (fun n hn => hns n (by simp [hn])) X]

/-- After the first pass, no bare bracket citation is left anywhere. -/
theorem noBare_subMulti : ∀ (n : Nat) (s : List Char), s.length ≤ n →
    noBare (subMulti s) = true := by
  intro n
  induction n with
  | zero =>
    intro s hs
    have : s = [] := List.eq_nil_of_length_eq_zero (Nat.le_zero.mp hs)
    subst this
    rfl
  | succ n ih =>
    intro s hs
    cases s with
    | nil => rfl
    | cons c cs =>
      have hcs : cs.length ≤ n := by simpa using hs
      rw [subMulti_cons]
      by_cases hc : c = '['
      · rw [if_pos hc]
        cases hmm : matchMulti cs with
        | none =>
          rw [Option.elim_none, noBare, noHitAux_cons,
            matchMulti_none_subMulti cs hmm]
          have := ih cs hcs
          rw [noBare] at this
          rw [this]
          simp
        | some ar =>
          obtain ⟨ns, r'⟩ := ar
          rw [Option.elim_some]
          have hsound := matchMulti_sound cs ns r' hmm
          have hlen : r'.length ≤ n :=
            Nat.le_trans (Nat.le_of_lt (matchMulti_length cs ns r' hmm)) hcs
          rw [noBare_expandGroups ns hsound.2 (subMulti r')]
          exact ih r' hlen
      · rw [if_neg hc, noBare, noHitAux_cons]
        have := ih cs hcs
        rw [noBare] at this
        rw [this]
        simp [hc]

theorem noBare_subMulti' (s : List Char) : noBare (subMulti s) = true :=
  noBare_subMulti s.length s (Nat.le_refl _)

/-- A second-pass match is in particular a first-pass match. -/
theorem matchMulti_none_matchSingle (r : List Char) (h : matchMulti r = none) :
    matchSingle r = none := by
  cases hms : matchSingle r with
  | none => rfl
  | some dt =>
    obtain ⟨d, t⟩ := dt
    obtain ⟨hd, hdig, hdrop, hdeq, hla⟩ := matchSingle_sound r d t hms
    exfalso
    unfold matchMulti at h
    rw [if_neg (by rw [← hdeq]; exact hd), hdrop, parseMore_cons,
      if_neg (by decide)] at h
    dsimp only at h
    split at h
    · next t₂ heq =>
      injection heq with h1 h2
      subst h2
      rw [if_neg hla] at h
      simp at h
    · next hne2 => exact hne2 _ rfl

theorem matchSpaces_sound (r : List Char) (d t' : List Char)
    (h : matchSpaces r = some (d, t')) :
    r.takeWhile Char.isDigit ≠ [] ∧
      ∃ t₀, r.dropWhile Char.isDigit = ']' :: t₀ ∧
        t₀.takeWhile Char.isWhitespace ≠ [] := by
  unfold matchSpaces at h
  split at h
  · exact absurd h (by simp)
  · next hd =>
    split at h
    · next t₀ heq =>
      split at h
      · exact absurd h (by simp)
      · next hw =>
        split at h
        · exact ⟨hd, t₀, heq, hw⟩
        · exact absurd h (by simp)
    · exact absurd h (by simp)

/-- A fourth-pass match is in particular a first-pass match: its lookahead
sees whitespace, never `(`. -/
theorem matchMulti_none_matchSpaces (r : List Char) (h : matchMulti r = none) :
    matchSpaces r = none := by
  cases hms : matchSpaces r with
  | none => rfl
  | some dt =>
    obtain ⟨d, t⟩ := dt
    obtain ⟨hd, t₀, hdrop, hw⟩ := matchSpaces_sound r d t hms
    exfalso
    have hlaw : ∃ w ws, t₀ = w :: ws ∧ Char.isWhitespace w = true := by
      cases t₀ with
      | nil => simp [List.takeWhile] at hw
      | cons w ws =>
        refine ⟨w, ws, rfl, ?_⟩
        by_contra hwf
        rw [List.takeWhile_cons, if_neg hwf] at hw
        exact hw rfl
    obtain ⟨w, ws, ht₀, hwt⟩ := hlaw
    unfold matchMulti at h
    rw [if_neg hd, hdrop, parseMore_cons, if_neg (by decide)] at h
    dsimp only at h
    split at h
    · next t₂ heq =>
      injection heq with h1 h2
      subst h2
      rw [ht₀] at h
      have hwne : w ≠ '(' := by
        intro hcontra
        subst hcontra
        simp at hwt
      rw [if_neg (by simpa using hwne)] at h
      simp at h
    · next hne2 => exact hne2 _ rfl

theorem noBare_subSingle_id (s : List Char) (h : noBare s = true) :
    subSingle s = s :=
  scanS_eq_self_of_noHit _ _ _ matchSingle_length s
    (noHitAux_of_imp _ _ _ _ matchMulti_none_matchSingle (fun _ h => h) s h)

theorem noBare_subSpaces_id (s : List Char) (h : noBare s = true) :
    subSpaces s = s :=
  scanS_eq_self_of_noHit _ _ _ matchSpaces_length s
    (noHitAux_of_imp _ _ _ _ matchMulti_none_matchSpaces (fun _ h => h) s h)

/-! ### The third pass as a character-flipping relation

The third pass's match has the same length as its replacement: only the
opening bracket can flip `[ -> (` and the closing one `] -> )`.  `mixR`
relates each input character to the corresponding output character, and all
the matchers' verdicts transfer along it in the direction needed. -/

def mixR (c c' : Char) : Prop :=
  c' = c ∨ (c = '[' ∧ c' = '(') ∨ (c = ']' ∧ c' = ')')

theorem mixR_self (l : List Char) : List.Forall₂ mixR l l :=
  List.forall₂_same.mpr (fun _ _ => Or.inl rfl)

theorem forallTwo_append {R : Char → Char → Prop} {a b c d : List Char}
    (h1 : List.Forall₂ R a b) (h2 : List.Forall₂ R c d) :
    List.Forall₂ R (a ++ c) (b ++ d) :=
  List.rel_append h1 h2

/-- If the target is not an inserted bracket, the characters agree. -/
theorem mixR_eq_tgt (c c' : Char) (h : mixR c c') (h2 : c' ≠ '(') (h3 : c' ≠ ')') :
    c' = c := by
  rcases h with h | ⟨h1, h4⟩ | ⟨h1, h4⟩
  · exact h
  · exact absurd h4 h2
  · exact absurd h4 h3

/-- If the source is not a flippable bracket, the characters agree. -/
theorem mixR_eq_src (c c' : Char) (h : mixR c c') (h2 : c ≠ '[') (h3 : c ≠ ']') :
    c' = c := by
  rcases h with h | ⟨h1, h4⟩ | ⟨h1, h4⟩
  · exact h
  · exact absurd h1 h2
  · exact absurd h1 h3

theorem forallTwo_takeWhile (p : Char → Bool) (hp1 : p '[' = false)
    (hp2 : p ']' = false) (hp3 : p '(' = false) (hp4 : p ')' = false) :
    ∀ (r r' : List Char), List.Forall₂ mixR r r' →
      r'.takeWhile p = r.takeWhile p ∧
        List.Forall₂ mixR (r.dropWhile p) (r'.dropWhile p) := by
  intro r
  induction r with
  | nil =>
    intro r' h
    cases h
    exact ⟨rfl, List.Forall₂.nil⟩
  | cons c cs ih =>
    intro r' h
    cases h with
    | @cons _ b _ cs' hcc htail =>
      have hpc : p b = p c := by
        rcases hcc with h | ⟨h1, h2⟩ | ⟨h1, h2⟩
        · rw [h]
        · rw [h1, h2, hp1, hp3]
        · rw [h1, h2, hp2, hp4]
      by_cases hc : p c = true
      · have hbc : b = c := by
          apply mixR_eq_src c b hcc
          · intro hcontra
            rw [hcontra, hp1] at hc
            exact absurd hc (by simp)
          · intro hcontra
            rw [hcontra, hp2] at hc
            exact absurd hc (by simp)
        subst hbc
        obtain ⟨ih1, ih2⟩ := ih cs' htail
        constructor
        · rw [List.takeWhile_cons, List.takeWhile_cons, if_pos hc, if_pos hc, ih1]
        · rw [List.dropWhile_cons, List.dropWhile_cons, if_pos hc, if_pos hc]
          exact ih2
      · have hcf : p c = false := by simpa using hc
        have hbf : p b = false := by rw [hpc, hcf]
        constructor
        · rw [List.takeWhile_cons, List.takeWhile_cons,
            if_neg (by simp [hcf, hbf]), if_neg (by simp [hcf, hbf])]
        · rw [List.dropWhile_cons, List.dropWhile_cons,
            if_neg (by simp [hcf, hbf]), if_neg (by simp [hcf, hbf])]
          exact List.Forall₂.cons hcc htail

theorem forallTwo_parseMore : ∀ (n : Nat) (r r' : List Char), r.length ≤ n →
    List.Forall₂ mixR r r' →
    (parseMore r').1 = (parseMore r).1 ∧
      List.Forall₂ mixR (parseMore r).2 (parseMore r').2 := by
  intro n
  induction n with
  | zero =>
    intro r r' hr h
    have : r = [] := List.eq_nil_of_length_eq_zero (Nat.le_zero.mp hr)
    subst this
    cases h
    exact ⟨rfl, List.Forall₂.nil⟩
  | succ n ih =>
    intro r r' hr h
    cases r with
    | nil =>
      cases h
      exact ⟨rfl, List.Forall₂.nil⟩
    | cons c cs =>
      cases h with
      | @cons _ b _ cs' hcc htail =>
        by_cases hc : c = ','
        · subst hc
          have hb : b = ',' := mixR_eq_src ',' b hcc (by decide) (by decide)
          subst hb
          rw [parseMore_cons, parseMore_cons, if_pos rfl, if_pos rfl]
          obtain ⟨hw1, hw2⟩ := forallTwo_takeWhile Char.isWhitespace
            (by decide) (by decide) (by decide) (by decide) cs cs' htail
          obtain ⟨hd1, hd2⟩ := forallTwo_takeWhile Char.isDigit
            (by decide) (by decide) (by decide) (by decide) _ _ hw2
          rw [hd1]
          by_cases hdd : (cs.dropWhile Char.isWhitespace).takeWhile Char.isDigit = []
          · rw [if_pos hdd, if_pos hdd]
            exact ⟨rfl, List.Forall₂.cons hcc htail⟩
          · rw [if_neg hdd, if_neg hdd]
            have hlen :
                ((cs.dropWhile Char.isWhitespace).dropWhile Char.isDigit).length ≤ n := by
              have h3 : ((cs.dropWhile Char.isWhitespace).dropWhile Char.isDigit).length ≤
                  cs.length :=
                Nat.le_trans (length_dropWhile_le _ _) (length_dropWhile_le _ _)
              have h4 : cs.length ≤ n := by simpa using hr
              exact Nat.le_trans h3 h4
            obtain ⟨p1, p2⟩ := ih _ _ hlen hd2
            exact ⟨by rw [p1], p2⟩
        · have hb : b ≠ ',' := by
            intro hcontra
            subst hcontra
            exact hc (mixR_eq_tgt c ',' hcc (by decide) (by decide)).symm
          rw [parseMore_cons, parseMore_cons, if_neg hc, if_neg hb]
          exact ⟨rfl, List.Forall₂.cons hcc htail⟩

theorem matchMulti_some_inv (r : List Char) (ns : List (List Char))
    (t : List Char) (h : matchMulti r = some (ns, t)) :
    r.takeWhile Char.isDigit ≠ [] ∧
      (parseMore (r.dropWhile Char.isDigit)).2 = ']' :: t ∧
      t.head? ≠ some '(' := by
  unfold matchMulti at h
  split at h
  · exact absurd h (by simp)
  · next hd =>
    split at h
    · next t₀ heq =>
      split at h
      · exact absurd h (by simp)
      · next hla =>
        simp only [Option.some.injEq, Prod.mk.injEq] at h
        obtain ⟨-, h2⟩ := h
        subst h2
        exact ⟨hd, heq, hla⟩
    · exact absurd h (by simp)

theorem matchMulti_ne_none (r ys : List Char)
    (h1 : r.takeWhile Char.isDigit ≠ [])
    (h2 : (parseMore (r.dropWhile Char.isDigit)).2 = ']' :: ys)
    (h3 : ys.head? ≠ some '(') : matchMulti r ≠ none := by
  unfold matchMulti
  rw [if_neg h1, h2]
  split
  · next t heq =>
    injection heq with ha hb
    subst hb
    rw [if_neg h3]
    simp
  · next hne2 => exact absurd rfl (hne2 _)

theorem matchMulti_none_forallTwo (r r' : List Char)
    (h : List.Forall₂ mixR r r') (hm : matchMulti r = none) :
    matchMulti r' = none := by
  cases hmm : matchMulti r' with
  | none => rfl
  | some x =>
    exfalso
    obtain ⟨ns, t⟩ := x
    obtain ⟨h1, h2, h3⟩ := matchMulti_some_inv r' ns t hmm
    obtain ⟨hd1, hd2⟩ := forallTwo_takeWhile Char.isDigit
      (by decide) (by decide) (by decide) (by decide) r r' h
    obtain ⟨p1, p2⟩ := forallTwo_parseMore (r.dropWhile Char.isDigit).length _ _
      (Nat.le_refl _) hd2
    rw [h2] at p2
    cases hq : (parseMore (r.dropWhile Char.isDigit)).2 with
    | nil => rw [hq] at p2; cases p2
    | cons y ys =>
      rw [hq] at p2
      cases p2 with
      | @cons _ _ _ _ hyc hts =>
        have hy : y = ']' := by
          rcases hyc with hh | ⟨hh1, hh2⟩ | ⟨hh1, hh2⟩
          · exact hh.symm
          · exact absurd hh2 (by decide)
          · exact hh1
        subst hy
        have hysne : ys.head? ≠ some '(' := by
          intro hcontra
          obtain ⟨zs, hzs⟩ := head?_some_shape ys '(' hcontra
          rw [hzs] at hts
          cases hts with
          | @cons _ b _ t₂ hb htt =>
            have hb' : b = '(' := mixR_eq_src '(' b hb (by decide) (by decide)
            exact h3 (by simp [hb'])
        have htake : r.takeWhile Char.isDigit ≠ [] := by
          rw [← hd1]; exact h1
        exact matchMulti_ne_none r ys htake hq hysne hm

/-- `noBare` transfers along the flip relation. -/
theorem noBare_forallTwo : ∀ (r r' : List Char), List.Forall₂ mixR r r' →
    noBare r = true → noBare r' = true := by
  intro r
  induction r with
  | nil =>
    intro r' h _
    cases h
    rfl
  | cons c cs ih =>
    intro r' h hn
    cases h with
    | @cons _ b _ cs' hcc htail =>
      rw [noBare, noHitAux_cons, Bool.and_eq_true] at hn
      rw [noBare, noHitAux_cons, Bool.and_eq_true]
      refine ⟨?_, ih cs' htail hn.2⟩
      by_cases hb : b = '['
      · subst hb
        have hc : c = '[' := by
          rcases hcc with hh | ⟨hh1, hh2⟩ | ⟨hh1, hh2⟩
          · exact hh.symm
          · exact hh1
          · exact absurd hh2 (by decide)
        subst hc
        have hmnone : matchMulti cs = none := by
          rcases Bool.or_eq_true_iff.mp hn.1 with hx | hx
          · simp at hx
          · cases hmc : matchMulti cs with
            | none => rfl
            | some ar => rw [hmc] at hx; simp at hx
        rw [matchMulti_none_forallTwo cs cs' htail hmnone]
        simp
      · simp [hb]

/-- The third pass's output is the input with brackets flipped at match
sites. -/
theorem subMixed_forallTwo : ∀ (n : Nat) (s : List Char), s.length ≤ n →
    List.Forall₂ mixR s (subMixed s) := by
  intro n
  induction n with
  | zero =>
    intro s hs
    have : s = [] := List.eq_nil_of_length_eq_zero (Nat.le_zero.mp hs)
    subst this
    rw [subMixed_nil]
    exact List.Forall₂.nil
  | succ n ih =>
    intro s hs
    cases s with
    | nil =>
      rw [subMixed_nil]
      exact List.Forall₂.nil
    | cons c cs =>
      have hcs : cs.length ≤ n := by simpa using hs
      rw [subMixed_cons]
      by_cases htrig : c = '[' ∨ c = '('
      · rw [if_pos htrig]
        cases hmm : matchMixed cs with
        | none =>
          rw [Option.elim_none]
          exact List.Forall₂.cons (Or.inl rfl) (ih cs hcs)
        | some ar =>
          obtain ⟨d, r'⟩ := ar
          rw [Option.elim_some]
          obtain ⟨b, hb, hcs2, hdne, hdig⟩ := matchMixed_sound cs d r' hmm
          have hr'len : r'.length ≤ n :=
            Nat.le_trans (Nat.le_of_lt (matchMixed_length cs d r' hmm)) hcs
          have hshape : ('(' :: citTag) ++ d ++ [')'] ++ subMixed r' =
              '(' :: (citTag ++ (d ++ ')' :: subMixed r')) := by
            simp
          rw [hshape, hcs2]
          refine List.Forall₂.cons ?_ ?_
          · rcases htrig with h | h
            · exact Or.inr (Or.inl ⟨h, rfl⟩)
            · subst h; exact Or.inl rfl
          · refine forallTwo_append (mixR_self citTag) ?_
            refine forallTwo_append (mixR_self d) ?_
            refine List.Forall₂.cons ?_ (ih r' hr'len)
            rcases hb with h | h
            · subst h; exact Or.inr (Or.inr ⟨rfl, rfl⟩)
            · subst h; exact Or.inl rfl
      · rw [if_neg htrig]
        exact List.Forall₂.cons (Or.inl rfl) (ih cs hcs)

theorem subMixed_forallTwo' (s : List Char) : List.Forall₂ mixR s (subMixed s) :=
  subMixed_forallTwo s.length s (Nat.le_refl _)

/-- The third pass preserves the absence of bare bracket citations. -/
theorem noBare_subMixed (s : List Char) (h : noBare s = true) :
    noBare (subMixed s) = true :=
  noBare_forallTwo s (subMixed s) (subMixed_forallTwo' s) h

theorem forallTwo_stripPfx :
    ∀ (p r r' : List Char), (∀ c ∈ p, c ≠ '(' ∧ c ≠ ')') →
      List.Forall₂ mixR r r' → ∀ t', stripPfx p r' = some t' →
      ∃ t, stripPfx p r = some t ∧ List.Forall₂ mixR t t' := by
  intro p
  induction p with
  | nil =>
    intro r r' _ h t' ht'
    have : r' = t' := by simpa [stripPfx] using ht'
    subst this
    exact ⟨r, rfl, h⟩
  | cons a ps ih =>
    intro r r' hp h t' ht'
    cases h with
    | nil => simp [stripPfx] at ht'
    | @cons c b cs cs' hcc htail =>
      rw [stripPfx] at ht'
      by_cases hba : b = a
      · rw [if_pos hba] at ht'
        have ha := hp a (by simp)
        have hcb : b = c := by
          apply mixR_eq_tgt c b hcc
          · rw [hba]; exact ha.1
          · rw [hba]; exact ha.2
        obtain ⟨t, h1, h2⟩ := ih cs cs' (fun c hc => hp c (by simp [hc])) htail t' ht'
        refine ⟨t, ?_, h2⟩
        rw [stripPfx, if_pos (by rw [← hcb, hba]), h1]
      · rw [if_neg hba] at ht'
        exact absurd ht' (by simp)

theorem matchMixed_some_inv (r : List Char) (d t : List Char)
    (h : matchMixed r = some (d, t)) :
    ∃ u, stripPfx citTag r = some u ∧ u.takeWhile Char.isDigit = d ∧ d ≠ [] ∧
      ∃ b, u.dropWhile Char.isDigit = b :: t ∧ (b = ']' ∨ b = ')') := by
  unfold matchMixed at h
  split at h
  · exact absurd h (by simp)
  · next t₁ hstrip =>
    split at h
    · exact absurd h (by simp)
    · next hd =>
      split at h
      · next b t₂ heq =>
        split at h
        · next hb =>
          simp only [Option.some.injEq, Prod.mk.injEq] at h
          obtain ⟨h1, h2⟩ := h
          subst h2
          exact ⟨t₁, hstrip, h1, by rw [h1] at hd; exact hd, b, heq, hb⟩
        · exact absurd h (by simp)
      · exact absurd h (by simp)

theorem matchMixed_ne_none (r u : List Char) (y : Char) (ys : List Char)
    (hstrip : stripPfx citTag r = some u)
    (hne : u.takeWhile Char.isDigit ≠ [])
    (hdrop : u.dropWhile Char.isDigit = y :: ys)
    (hy : y = ']' ∨ y = ')') : matchMixed r ≠ none := by
  unfold matchMixed
  rw [hstrip]
  dsimp only
  rw [if_neg hne, hdrop]
  split
  · next b t₂ heq =>
    injection heq with ha hb
    subst ha
    rw [if_pos hy]
    simp
  · next heq2 => exact absurd heq2 (by simp)

theorem matchMixed_none_forallTwo (r r' : List Char)
    (h : List.Forall₂ mixR r r') (hm : matchMixed r = none) :
    matchMixed r' = none := by
  cases hmm : matchMixed r' with
  | none => rfl
  | some x =>
    exfalso
    obtain ⟨d, t⟩ := x
    obtain ⟨u', hstrip', htake', hdne, b, hdrop', hb⟩ := matchMixed_some_inv r' d t hmm
    have hcit : ∀ c ∈ citTag, c ≠ '(' ∧ c ≠ ')' := by decide
    obtain ⟨u, hstrip, hrel⟩ := forallTwo_stripPfx citTag r r' hcit h u' hstrip'
    obtain ⟨hd1, hd2⟩ := forallTwo_takeWhile Char.isDigit
      (by decide) (by decide) (by decide) (by decide) u u' hrel
    have htakeu : u.takeWhile Char.isDigit ≠ [] := by
      rw [hd1.symm.trans htake']
      exact hdne
    rw [hdrop'] at hd2
    cases hq : u.dropWhile Char.isDigit with
    | nil => rw [hq] at hd2; cases hd2
    | cons y ys =>
      rw [hq] at hd2
      cases hd2 with
      | @cons _ _ _ _ hyb hts =>
        have hy : y = ']' ∨ y = ')' := by
          rcases hb with h1 | h1
          · subst h1
            rcases hyb with hh | ⟨hh1, hh2⟩ | ⟨hh1, hh2⟩
            · exact Or.inl hh.symm
            · exact absurd hh2 (by decide)
            · exact Or.inl hh1
          · subst h1
            rcases hyb with hh | ⟨hh1, hh2⟩ | ⟨hh1, hh2⟩
            · exact Or.inr hh.symm
            · exact absurd hh2 (by decide)
            · exact Or.inl hh1
        exact matchMixed_ne_none r u y ys hstrip htakeu hq hy hm

/-- The canonical form produced by the third pass matches again, capturing
the same digits and rewriting to itself. -/
theorem matchMixed_citeForm (d X : List Char) (hdne : d ≠ [])
    (hdig : ∀ c ∈ d, Char.isDigit c = true) :
    matchMixed (citTag ++ (d ++ ')' :: X)) = some (d, X) := by
  obtain ⟨htk, hdr⟩ := takeWhile_pre Char.isDigit (')' :: X)
    (by intro c hc; simp at hc; subst hc; decide) d hdig
  unfold matchMixed
  rw [stripPfx_self]
  dsimp only
  rw [htk, if_neg hdne, hdr]
  split
  · next b t₂ heq =>
    injection heq with ha hb
    subst ha
    subst hb
    rw [if_pos (Or.inr rfl)]
  · next heq2 => exact absurd heq2 (by simp)

/-- The third pass is idempotent. -/
theorem subMixed_idem : ∀ (n : Nat) (s : List Char), s.length ≤ n →
    subMixed (subMixed s) = subMixed s := by
  intro n
  induction n with
  | zero =>
    intro s hs
    have : s = [] := List.eq_nil_of_length_eq_zero (Nat.le_zero.mp hs)
    subst this
    rfl
  | succ n ih =>
    intro s hs
    cases s with
    | nil => rfl
    | cons c cs =>
      have hcs : cs.length ≤ n := by simpa using hs
      rw [subMixed_cons]
      by_cases htrig : c = '[' ∨ c = '('
      · rw [if_pos htrig]
        cases hmm : matchMixed cs with
        | none =>
          rw [Option.elim_none, subMixed_cons, if_pos htrig,
            matchMixed_none_forallTwo cs (subMixed cs) (subMixed_forallTwo' cs) hmm,
            Option.elim_none, ih cs hcs]
        | some ar =>
          obtain ⟨d, r'⟩ := ar
          rw [Option.elim_some]
          obtain ⟨b, hb, hcs2, hdne, hdig⟩ := matchMixed_sound cs d r' hmm
          have hr'len : r'.length ≤ n :=
            Nat.le_trans (Nat.le_of_lt (matchMixed_length cs d r' hmm)) hcs
          have hshape : ('(' :: citTag) ++ d ++ [')'] ++ subMixed r' =
              '(' :: (citTag ++ (d ++ ')' :: subMixed r')) := by
            simp
          rw [hshape, subMixed_cons, if_pos (Or.inr rfl),
            matchMixed_citeForm d (subMixed r') hdne hdig, Option.elim_some]
          dsimp only
          rw [ih r' hr'len, hshape]
      · rw [if_neg htrig, subMixed_cons, if_neg htrig, ih cs hcs]

theorem subMixed_idem' (s : List Char) :
    subMixed (subMixed s) = subMixed s :=
  subMixed_idem s.length s (Nat.le_refl _)

/-! ### Idempotence of the whole normalizer -/

/-- On first-pass outputs, pass 2 and pass 4 are the identity, so the whole
pipeline collapses to pass 3 after pass 1. -/
theorem cleanList_eq (l : List Char) :
    subSpaces (subMixed (subSingle (subMulti l))) = subMixed (subMulti l) := by
  have h1 : noBare (subMulti l) = true := noBare_subMulti' l
  rw [noBare_subSingle_id _ h1]
  exact noBare_subSpaces_id _ (noBare_subMixed _ h1)

theorem cleanList_idem (l : List Char) :
    subSpaces (subMixed (subSingle (subMulti
      (subSpaces (subMixed (subSingle (subMulti l))))))) =
    subSpaces (subMixed (subSingle (subMulti l))) := by
  rw [cleanList_eq l]
  have hy : noBare (subMulti l) = true := noBare_subMulti' l
  have hz : noBare (subMixed (subMulti l)) = true := noBare_subMixed _ hy
  rw [cleanList_eq (subMixed (subMulti l)), noBare_subMulti_id _ hz,
    subMixed_idem' (subMulti l)]

/-! ### Predicates for citation-free text -/

/-- `\[\d+(?:,\s*\d+)*\]` without the lookahead: a bracketed digit list. -/
def matchBracketNum (r : List Char) : Option (List (List Char) × List Char) :=
  if r.takeWhile Char.isDigit = [] then none
  else
    match (parseMore (r.dropWhile Char.isDigit)).2 with
    | ']' :: t => some (r.takeWhile Char.isDigit :: (parseMore (r.dropWhile Char.isDigit)).1, t)
    | _ => none

/-- Some position of `s` starts a bracketed digit-list substring. -/
def hasBracketNum : List Char → Bool
  | [] => false
  | c :: rest => ((c == '[') && (matchBracketNum rest).isSome) || hasBracketNum rest

/-- Some position of `s` starts the literal substring `#citation-`. -/
def containsTag : List Char → Bool
  | [] => false
  | c :: rest => (stripPfx citTag (c :: rest)).isSome || containsTag rest

theorem noHit_of_not_hasBracketNum :
    ∀ s : List Char, hasBracketNum s = false →
      noHitAux (fun c => c == '[') matchBracketNum s = true := by
  intro s
  induction s with
  | nil => intro _; rfl
  | cons c cs ih =>
    intro h
    rw [hasBracketNum, Bool.or_eq_false_iff, Bool.and_eq_false_iff] at h
    rw [noHitAux_cons, Bool.and_eq_true]
    refine ⟨?_, ih h.2⟩
    rcases h.1 with h1 | h1
    · simp [h1]
    · cases hmc : matchBracketNum cs with
      | none => simp
      | some x => rw [hmc] at h1; simp at h1

theorem matchMulti_none_of_bracketNum_none (r : List Char)
    (h : matchBracketNum r = none) : matchMulti r = none := by
  cases hmm : matchMulti r with
  | none => rfl
  | some x =>
    exfalso
    obtain ⟨ns, t⟩ := x
    obtain ⟨h1, h2, h3⟩ := matchMulti_some_inv r ns t hmm
    unfold matchBracketNum at h
    rw [if_neg h1, h2] at h
    split at h
    · next t₂ heq =>
      exact absurd h (by simp)
    · next hne2 => exact hne2 t rfl

theorem containsTag_cons_false (c : Char) (rest : List Char)
    (h : containsTag (c :: rest) = false) :
    (stripPfx citTag (c :: rest)).isSome = false ∧ containsTag rest = false := by
  rw [containsTag, Bool.or_eq_false_iff] at h
  exact h

theorem noHit_mixed_of_no_tag :
    ∀ s : List Char, containsTag s = false →
      noHitAux (fun c => c == '[' || c == '(') matchMixed s = true := by
  intro s
  induction s with
  | nil => intro _; rfl
  | cons c cs ih =>
    intro h
    obtain ⟨h1, h2⟩ := containsTag_cons_false c cs h
    rw [noHitAux_cons, Bool.and_eq_true]
    refine ⟨?_, ih h2⟩
    cases hmm : matchMixed cs with
    | none => simp
    | some x =>
      exfalso
      obtain ⟨d, t⟩ := x
      obtain ⟨u, hstrip, -⟩ := matchMixed_some_inv cs d t hmm
      cases cs with
      | nil => simp [stripPfx] at hstrip
      | cons c' cs' =>
        obtain ⟨hs1, -⟩ := containsTag_cons_false c' cs' h2
        rw [hstrip] at hs1
        simp at hs1

/-! ### Claim theorems for the Citation Normalizer -/

/-- C8: the Citation Normalizer is idempotent: for every string `x`,
`clean_citations (clean_citations x) = clean_citations x`. -/
theorem C8_clean_citations_idempotent (s : String) :
    clean_citations (clean_citations s) = clean_citations s := by
  unfold clean_citations
  exact congrArg String.mk (cleanList_idem s.data)

/-- C9: of the four specified point equalities, three hold, but
`clean_citations "[1] (#citation-1)"` is `"[1](#citation-1) (#citation-1)"`,
not `"[1](#citation-1)"`: the first pass expands the `[1]` (whose lookahead
sees a space, not `(`) before the fourth pass could delete the space, which
contradicts the docstring of `clean_citations` itself. -/
theorem C9_clean_citations_point_values :
    clean_citations "[1]" = "[1](#citation-1)" ∧
    clean_citations "[1, 2]" = "[1](#citation-1)[2](#citation-2)" ∧
    clean_citations "(#citation-3]" = "(#citation-3)" ∧
    clean_citations "[1] (#citation-1)" = "[1](#citation-1) (#citation-1)" ∧
    "[1](#citation-1) (#citation-1)" ≠ "[1](#citation-1)" := by
  refine ⟨by decide, by decide, by decide, by decide, by decide⟩

/-- C10: the Citation Normalizer is the identity on citation-free text: a
string with no bracketed digit-list substring (`[` + digits, optionally
comma-separated, + `]`) and no occurrence of the substring `#citation-` is
returned unchanged. -/
theorem C10_clean_citations_identity_on_plain_text (s : String)
    (h1 : hasBracketNum s.data = false) (h2 : containsTag s.data = false) :
    clean_citations s = s := by
  unfold clean_citations
  have hBr := noHit_of_not_hasBracketNum s.data h1
  have hMulti : noHitAux (fun c => c == '[') matchMulti s.data = true :=
    noHitAux_of_imp _ _ _ _ matchMulti_none_of_bracketNum_none
      (fun _ h => h) s.data hBr
  have e1 : subMulti s.data = s.data :=
    scanS_eq_self_of_noHit _ _ _ matchMulti_length s.data hMulti
  have e2 : subSingle s.data = s.data := noBare_subSingle_id s.data hMulti
  have e3 : subMixed s.data = s.data :=
    scanS_eq_self_of_noHit _ _ _ matchMixed_length s.data
      (noHit_mixed_of_no_tag s.data h2)
  have e4 : subSpaces s.data = s.data := noBare_subSpaces_id s.data hMulti
  rw [e1, e2, e3, e4]

/-- Witness for C10 at the concrete citation-free string `"hello world."`. -/
theorem C10_witness :
    hasBracketNum "hello world.".data = false ∧
    containsTag "hello world.".data = false ∧
    clean_citations "hello world." = "hello world." :=
  ⟨by decide, by decide,
    C10_clean_citations_identity_on_plain_text "hello world."
      (by decide) (by decide)⟩

/-! ## The agent workflow (src/app/services/agent_service.py)

The orchestrator `run_agent_workflow` is an async generator; its embedding
is the full list of events it yields, as a function of the collaborator
outcomes.  An `Except.error e` outcome for a phase models that phase's
`await` raising an exception whose message is `e`; the generator's
top-level `except` branch then yields the error event and the failure
`done` event. -/

inductive EventKind
  | trace
  | sources
  | chunk
  | error
  | done
deriving DecidableEq, Repr

/-- One yielded `{"event": ..., "data": ...}` dictionary. -/
structure Event where
  event : EventKind
  data : String
deriving DecidableEq, Repr

/-- One search hit `{url, title, content}` as produced by the search
collaborator. -/
structure Snippet where
  url : String
  title : String
  content : String
deriving DecidableEq, Repr

/-- A deduplicated snippet with its 1-based ordinal id (the `snippet_data`
dictionaries built by `_run_researcher`). -/
structure Source where
  id : Nat
  url : String
  title : String
  content : String
deriving DecidableEq, Repr

/-- Modelled from the spec: `search_and_get_snippets` is imported by
`agent_service.py` from `app.services.web_search` but absent from the
sources (only `search_and_scrape` is present).  Per the spec's §4.2/§6
partial-failure policy — mirrored by the in-repo `search_and_scrape`, which
catches search failures and returns `[]` — it never raises: a failing
underlying search contributes an empty snippet list.  Its underlying
outcome is an explicit input here. -/
def search_and_get_snippets (outcome : Except String (List Snippet)) :
    List Snippet :=
  match outcome with
  | .ok snippets => snippets
  | .error _ => []

/-- The aggregation loop of `_run_researcher`: walk the flattened snippets,
skip urls already in the seen set (first occurrence wins), give each
survivor the next counter value as id, and append its block to the context
string. -/
def aggregateLoop : List Snippet → List String → Nat → String × List Source
  | [], _, _ => ("", [])
  | res :: rest, seen, counter =>
    if res.url ∈ seen then aggregateLoop rest seen counter
    else
      ("[Source " ++ toString counter ++ "]:\n" ++
          "URL: " ++ res.url ++ "\n" ++
          "Title: " ++ res.title ++ "\n" ++
          "Snippet: " ++ res.content ++ "\n\n" ++
          (aggregateLoop rest (res.url :: seen) (counter + 1)).1,
        { id := counter, url := res.url, title := res.title,
          content := res.content } ::
          (aggregateLoop rest (res.url :: seen) (counter + 1)).2)

/-- `_run_researcher` after `asyncio.gather` has produced one result list
per search query, in query order: the two nested `for` loops walk the lists
in exactly flattened order. -/
def run_researcher_from_results (results_lists : List (List Snippet)) :
    String × List Source :=
  aggregateLoop results_lists.flatten [] 1

/-- `_run_researcher` as a function of each sub-search's underlying
outcome. -/
def run_researcher (outcomes : List (Except String (List Snippet))) :
    String × List Source :=
  run_researcher_from_results (outcomes.map search_and_get_snippets)

/-! ### Planner (`_run_planner`) -/

/-- JSON values as `json.loads` returns them (numbers restricted to the
integers, which covers the values this service meets). -/
inductive JValue
  | null
  | bool (b : Bool)
  | num (n : Int)
  | str (s : String)
  | arr (elems : List JValue)
  | obj (fields : List (String × JValue))
deriving Repr

/-- Python `str.strip()`: remove leading and trailing whitespace. -/
def pyStrip (s : List Char) : List Char :=
  ((s.dropWhile Char.isWhitespace).reverse.dropWhile Char.isWhitespace).reverse

/-- Python `str.lstrip(chars)`: remove leading characters belonging to the
character set `chars` (a set, not a literal prefix). -/
def pyLStrip (chars : List Char) (s : List Char) : List Char :=
  s.dropWhile (fun c => chars.contains c)

/-- Python `str.rstrip(chars)`. -/
def pyRStrip (chars : List Char) (s : List Char) : List Char :=
  (s.reverse.dropWhile (fun c => chars.contains c)).reverse

/-- The code-fence cleanup in `_run_planner`:
`response.text.strip().lstrip("```json").lstrip("```").rstrip("```")`. -/
def stripFences (t : String) : String :=
  String.mk (pyRStrip "```".data
    (pyLStrip "```".data (pyLStrip "```json".data (pyStrip t.data))))

/-- Embedding of `_run_planner`.  `loads` is the standard library's
`json.loads` (`none` models `json.JSONDecodeError`); `resp` is the outcome
of the provider call `model.generate_content_async(...)` together with
reading `.text` (`.error` when it raises).  Both failure kinds are caught
and fall back to `[query]`; a successfully parsed value is returned as-is,
with no validation of its shape. -/
def run_planner (loads : String → Option JValue) (resp : Except String String)
    (query : String) : JValue :=
  match resp with
  | .error _ => JValue.arr [JValue.str query]
  | .ok t =>
    match loads (stripFences t) with
    | none => JValue.arr [JValue.str query]
    | some v => v

/-- The parsed value is a JSON list of strings. -/
def isStrList : JValue → Bool
  | .arr elems => elems.all fun v =>
      match v with
      | .str _ => true
      | _ => false
  | _ => false

/-! ### Writer (`_run_writer`) and orchestrator -/

/-- Embedding of `_run_writer` as the list of text values its generator
yields: each provider increment with non-empty (truthy) text is yielded as
it arrives; if the provider stream raises at any point, the `except` branch
yields one final error-text item and the generator ends.  `incs` are the
increments produced before the stream finished or failed, `fail` the
exception message if it failed. -/
def run_writer (incs : List String) (fail : Option String) : List String :=
  incs.filter (fun s => s != "") ++
    (match fail with
     | some e =>
       ["\n\n[Error] An error occurred while generating the answer: " ++ e]
     | none => [])

/-- Per-run collaborator behavior: everything the orchestrator awaits or
calls, as explicit functions of what the code passes them. -/
structure WorkflowWorld where
  planner : String → Except String JValue
  researcher : JValue → Except String (String × List Source)
  dumps : List Source → String
  writerInit : String → String → Option String
  writerStream : String → String → List String × Option String

/-- The two events the orchestrator's `except` branch yields. -/
def workflowFailEvents (e : String) : List Event :=
  [⟨.error, "An unexpected workflow error occurred: " ++ e⟩,
   ⟨.done, "Stream failed."⟩]

/-- Embedding of `run_agent_workflow`: the sequence of events one run
yields.  `w.planner query` is the outcome of `await _run_planner(...)`
(the planner swallows provider and JSON errors internally but its
pre-`try` statements can still raise); `w.researcher qs` the outcome of
`await _run_researcher(...)`; `w.dumps` is `json.dumps`;
`w.writerInit q ctx` a failure of `_run_writer`'s statements before its
`try` (surfacing at the first iteration of `async for`), and
`w.writerStream q ctx` the provider stream increments together with its
optional mid-stream failure. -/
def run_agent_workflow (w : WorkflowWorld) (query : String) : List Event :=
  ⟨.trace, "Phase 1: Planning..."⟩ ::
    (match w.planner query with
     | .error e => workflowFailEvents e
     | .ok search_queries =>
       ⟨.trace, "Phase 2: Searching..."⟩ ::
         (match w.researcher search_queries with
          | .error e => workflowFailEvents e
          | .ok (context_str, sources) =>
            ⟨.sources, w.dumps sources⟩ ::
              ⟨.trace, "Phase 3: Reading and Writing..."⟩ ::
                (if context_str = "" then
                  [⟨.trace, "No relevant snippets found."⟩,
                   ⟨.chunk,
                     "I could not find any relevant information to answer your query."⟩,
                   ⟨.done, "Stream complete."⟩]
                else
                  match w.writerInit query context_str with
                  | some e => workflowFailEvents e
                  | none =>
                    (run_writer (w.writerStream query context_str).1
                        (w.writerStream query context_str).2).map
                      (fun c => Event.mk .chunk c) ++
                      [⟨.done, "Stream complete."⟩])))

/-- Whether the run takes the orchestrator's `except` path. -/
def runFailed (w : WorkflowWorld) (query : String) : Bool :=
  match w.planner query with
  | .error _ => true
  | .ok qs =>
    match w.researcher qs with
    | .error _ => true
    | .ok (ctx, _) =>
      if ctx = "" then false else (w.writerInit query ctx).isSome

/-! ### Event-kind predicates and list helpers -/

def isSources (e : Event) : Bool :=
  match e.event with
  | .sources => true
  | _ => false

def isErrorEv (e : Event) : Bool :=
  match e.event with
  | .error => true
  | _ => false

def isChunkOrError (e : Event) : Bool :=
  match e.event with
  | .chunk => true
  | .error => true
  | _ => false

/-- Every `sources` event precedes every `chunk`/`error` event: once the
first `chunk`/`error` has occurred, no `sources` event appears. -/
def sourcesFirst (evs : List Event) : Bool :=
  (evs.dropWhile (fun e => !(isChunkOrError e))).all (fun e => !(isSources e))

/-- The run reaches the point where the `sources` event is yielded. -/
def reachesSources (w : WorkflowWorld) (query : String) : Bool :=
  match w.planner query with
  | .error _ => false
  | .ok qs =>
    match w.researcher qs with
    | .error _ => false
    | .ok _ => true

theorem countP_chunkMap (p : Event → Bool) (hp : ∀ s, p ⟨.chunk, s⟩ = false) :
    ∀ cs : List String,
      ((cs.map (fun c => Event.mk .chunk c)).countP p) = 0 := by
  intro cs
  induction cs with
  | nil => rfl
  | cons c cs ih =>
    rw [List.map_cons, List.countP_cons, ih, hp]
    simp

theorem all_chunkMap (p : Event → Bool) (hp : ∀ s, p ⟨.chunk, s⟩ = true) :
    ∀ cs : List String,
      ((cs.map (fun c => Event.mk .chunk c)).all p) = true := by
  intro cs
  induction cs with
  | nil => rfl
  | cons c cs ih =>
    rw [List.map_cons, List.all_cons, ih, hp]
    rfl

theorem all_dropWhile {α : Type} (p q : α → Bool) :
    ∀ l : List α, l.all p = true → (l.dropWhile q).all p = true := by
  intro l
  induction l with
  | nil => intro _; rfl
  | cons a l ih =>
    intro h
    rw [List.all_cons, Bool.and_eq_true] at h
    rw [List.dropWhile_cons]
    split
    · exact ih h.2
    · rw [List.all_cons, Bool.and_eq_true]
      exact ⟨h.1, h.2⟩

/-- C1: every run's event sequence ends with a terminal `done` event —
payload `"Stream complete."` when the orchestrator's `try` body runs to the
end, `"Stream failed."` when a phase raises and the `except` branch fires;
no run ends without it. -/
theorem C1_terminal_done_event (w : WorkflowWorld) (query : String) :
    (run_agent_workflow w query).getLast? =
      some ⟨.done,
        if runFailed w query then "Stream failed." else "Stream complete."⟩ := by
  cases hp : w.planner query with
  | error e =>
    simp [run_agent_workflow, runFailed, hp, workflowFailEvents,
      List.getLast?_cons_cons]
  | ok qs =>
    cases hr : w.researcher qs with
    | error e =>
      simp [run_agent_workflow, runFailed, hp, hr, workflowFailEvents,
        List.getLast?_cons_cons]
    | ok pair =>
      obtain ⟨ctx, srcs⟩ := pair
      by_cases hctx : ctx = ""
      · simp [run_agent_workflow, runFailed, hp, hr, hctx,
          List.getLast?_cons_cons]
      · cases hwi : w.writerInit query ctx with
        | some e =>
          simp [run_agent_workflow, runFailed, hp, hr, hctx, hwi,
            workflowFailEvents, List.getLast?_cons_cons]
        | none =>
          have hfin : ∀ X : List Event,
              ((⟨.trace, "Phase 3: Reading and Writing..."⟩ : Event) ::
                (X ++ [⟨.done, "Stream complete."⟩])).getLast? =
                some ⟨.done, "Stream complete."⟩ := by
            intro X
            rw [← List.cons_append, List.getLast?_concat]
          simp [run_agent_workflow, runFailed, hp, hr, hctx, hwi,
            List.getLast?_cons_cons, hfin]

/-! ### Branch shapes of the orchestrator -/

theorem workflow_eq_fail_planner (w : WorkflowWorld) (q e : String)
    (hp : w.planner q = .error e) :
    run_agent_workflow w q =
      [⟨.trace, "Phase 1: Planning..."⟩,
       ⟨.error, "An unexpected workflow error occurred: " ++ e⟩,
       ⟨.done, "Stream failed."⟩] := by
  simp [run_agent_workflow, hp, workflowFailEvents]

theorem workflow_eq_fail_researcher (w : WorkflowWorld) (q : String)
    (qs : JValue) (e : String) (hp : w.planner q = .ok qs)
    (hr : w.researcher qs = .error e) :
    run_agent_workflow w q =
      [⟨.trace, "Phase 1: Planning..."⟩,
       ⟨.trace, "Phase 2: Searching..."⟩,
       ⟨.error, "An unexpected workflow error occurred: " ++ e⟩,
       ⟨.done, "Stream failed."⟩] := by
  simp [run_agent_workflow, hp, hr, workflowFailEvents]

theorem workflow_eq_no_info (w : WorkflowWorld) (q : String)
    (qs : JValue) (srcs : List Source) (hp : w.planner q = .ok qs)
    (hr : w.researcher qs = .ok ("", srcs)) :
    run_agent_workflow w q =
      [⟨.trace, "Phase 1: Planning..."⟩,
       ⟨.trace, "Phase 2: Searching..."⟩,
       ⟨.sources, w.dumps srcs⟩,
       ⟨.trace, "Phase 3: Reading and Writing..."⟩,
       ⟨.trace, "No relevant snippets found."⟩,
       ⟨.chunk, "I could not find any relevant information to answer your query."⟩,
       ⟨.done, "Stream complete."⟩] := by
  simp [run_agent_workflow, hp, hr]

theorem workflow_eq_writer_init_fail (w : WorkflowWorld) (q : String)
    (qs : JValue) (ctx : String) (srcs : List Source) (e : String)
    (hp : w.planner q = .ok qs) (hr : w.researcher qs = .ok (ctx, srcs))
    (hctx : ctx ≠ "") (hwi : w.writerInit q ctx = some e) :
    run_agent_workflow w q =
      [⟨.trace, "Phase 1: Planning..."⟩,
       ⟨.trace, "Phase 2: Searching..."⟩,
       ⟨.sources, w.dumps srcs⟩,
       ⟨.trace, "Phase 3: Reading and Writing..."⟩,
       ⟨.error, "An unexpected workflow error occurred: " ++ e⟩,
       ⟨.done, "Stream failed."⟩] := by
  simp [run_agent_workflow, hp, hr, hctx, hwi, workflowFailEvents]

theorem workflow_eq_writer (w : WorkflowWorld) (q : String)
    (qs : JValue) (ctx : String) (srcs : List Source)
    (hp : w.planner q = .ok qs) (hr : w.researcher qs = .ok (ctx, srcs))
    (hctx : ctx ≠ "") (hwi : w.writerInit q ctx = none) :
    run_agent_workflow w q =
      [⟨.trace, "Phase 1: Planning..."⟩,
       ⟨.trace, "Phase 2: Searching..."⟩,
       ⟨.sources, w.dumps srcs⟩,
       ⟨.trace, "Phase 3: Reading and Writing..."⟩] ++
      (run_writer (w.writerStream q ctx).1 (w.writerStream q ctx).2).map
        (fun c => Event.mk .chunk c) ++
      [⟨.done, "Stream complete."⟩] := by
  simp [run_agent_workflow, hp, hr, hctx, hwi]

/-! ### C3: the sources event -/

/-- A run whose research phase raises (`asyncio.gather` propagates a
sub-search exception), reaching the orchestrator's `except` branch before
the sources event. -/
def failingSearchWorld : WorkflowWorld where
  planner := fun _ => .ok (JValue.arr [JValue.str "q1"])
  researcher := fun _ => .error "DDGS search failed"
  dumps := fun _ => "[]"
  writerInit := fun _ _ => none
  writerStream := fun _ _ => ([], none)

/-- C3 counterexample: a run that fails during research ends in the FAILED
state with an `error` event but **zero** `sources` events, refuting
"exactly one sources event ... including runs that end in the FAILED
state". -/
theorem C3_counterexample :
    (run_agent_workflow failingSearchWorld "anything").countP isSources = 0 ∧
    (run_agent_workflow failingSearchWorld "anything").countP isErrorEv = 1 ∧
    runFailed failingSearchWorld "anything" = true := by
  refine ⟨rfl, rfl, rfl⟩

/-- C3 amended: at most one `sources` event is emitted per run; exactly one
on every run whose planning and research phases return (even those that
later fail), and every `sources` event precedes every `chunk`/`error`
event; runs that fail during planning or research emit none. -/
theorem C3_amended_sources_event (w : WorkflowWorld) (q : String) :
    (run_agent_workflow w q).countP isSources ≤ 1 ∧
    (reachesSources w q = true →
      (run_agent_workflow w q).countP isSources = 1) ∧
    sourcesFirst (run_agent_workflow w q) = true := by
  cases hp : w.planner q with
  | error e =>
    rw [workflow_eq_fail_planner w q e hp]
    refine ⟨by simp [List.countP_cons, isSources], ?_, ?_⟩
    · intro hreach
      simp [reachesSources, hp] at hreach
    · simp [sourcesFirst, isChunkOrError, isSources]
  | ok qs =>
    cases hr : w.researcher qs with
    | error e =>
      rw [workflow_eq_fail_researcher w q qs e hp hr]
      refine ⟨by simp [List.countP_cons, isSources], ?_, ?_⟩
      · intro hreach
        simp [reachesSources, hp, hr] at hreach
      · simp [sourcesFirst, isChunkOrError, isSources]
    | ok pair =>
      obtain ⟨ctx, srcs⟩ := pair
      by_cases hctx : ctx = ""
      · subst hctx
        rw [workflow_eq_no_info w q qs srcs hp hr]
        refine ⟨by simp [List.countP_cons, isSources],
          fun _ => by simp [List.countP_cons, isSources], ?_⟩
        simp [sourcesFirst, isChunkOrError, isSources]
      · cases hwi : w.writerInit q ctx with
        | some e =>
          rw [workflow_eq_writer_init_fail w q qs ctx srcs e hp hr hctx hwi]
          refine ⟨by simp [List.countP_cons, isSources],
            fun _ => by simp [List.countP_cons, isSources], ?_⟩
          simp [sourcesFirst, isChunkOrError, isSources]
        | none =>
          rw [workflow_eq_writer w q qs ctx srcs hp hr hctx hwi]
          have hmap0 :
              (((run_writer (w.writerStream q ctx).1
                  (w.writerStream q ctx).2).map
                (fun c => Event.mk .chunk c)).countP isSources) = 0 :=
            countP_chunkMap isSources (fun _ => rfl) _
          have hall :
              ((((run_writer (w.writerStream q ctx).1
                    (w.writerStream q ctx).2).map
                  (fun c => Event.mk .chunk c)) ++
                [Event.mk .done "Stream complete."]).all
                (fun e => !(isSources e))) = true := by
            rw [List.all_append, all_chunkMap _ (fun _ => rfl)]
            simp [isSources]
          refine ⟨?_, fun _ => ?_, ?_⟩
          · rw [List.countP_append, List.countP_append, hmap0]
            simp [List.countP_cons, isSources]
          · rw [List.countP_append, List.countP_append, hmap0]
            simp [List.countP_cons, isSources]
          · rw [sourcesFirst]
            simp only [List.cons_append, List.nil_append, List.append_assoc]
            simp only [List.dropWhile_cons, isChunkOrError]
            simp only [Bool.not_false, if_pos]
            exact all_dropWhile _ _ _ hall

/-- A run that reaches the writer and streams two chunks normally. -/
def plainRunWorld : WorkflowWorld where
  planner := fun _ => .ok (JValue.arr [JValue.str "q1"])
  researcher := fun _ =>
    .ok ("[Source 1]:\ncontext", [⟨1, "https://e.com", "T", "C"⟩])
  dumps := fun _ => "[]"
  writerInit := fun _ _ => none
  writerStream := fun _ _ => (["Hello ", "world"], none)

/-- Witness for the amended C3 on a concrete successful run. -/
theorem C3_amended_witness :
    reachesSources plainRunWorld "q" = true ∧
    (run_agent_workflow plainRunWorld "q").countP isSources = 1 :=
  ⟨rfl, (C3_amended_sources_event plainRunWorld "q").2.1 rfl⟩

/-! ### C4: writer mid-stream failure; C2: chunk payloads -/

/-- A run whose provider stream raises after two chunks. -/
def midStreamFailWorld : WorkflowWorld where
  planner := fun _ => .ok (JValue.arr [JValue.str "q1"])
  researcher := fun _ => .ok ("some context", [⟨1, "https://e.com", "T", "C"⟩])
  dumps := fun _ => "[]"
  writerInit := fun _ _ => none
  writerStream := fun _ _ => (["chunk one ", "chunk two "], some "stream reset")

/-- C4 counterexample: when the provider stream raises after two chunks, the
run contains **no** `error` event — `_run_writer`'s `except` branch yields
the failure text as one more string, which the orchestrator wraps as a
`chunk` event — refuting "the event sequence contains exactly one error
event". -/
theorem C4_counterexample :
    (run_agent_workflow midStreamFailWorld "q").countP isErrorEv = 0 ∧
    (Event.mk .chunk
        "\n\n[Error] An error occurred while generating the answer: stream reset")
      ∈ run_agent_workflow midStreamFailWorld "q" ∧
    (run_agent_workflow midStreamFailWorld "q").getLast? =
      some ⟨.done, "Stream complete."⟩ := by
  refine ⟨rfl, ?_, rfl⟩
  decide

/-- C4 amended: if the Writer's provider stream raises mid-stream after some
chunks, **no** `error` event is emitted: the failure description is yielded
as one final `chunk` event (payload
`"\n\n[Error] An error occurred while generating the answer: <e>"`), no
text chunk follows it, and the orchestrator's own
`done("Stream complete.")` is still the final event. -/
theorem C4_amended_writer_failure (w : WorkflowWorld) (q : String)
    (qs : JValue) (ctx : String) (srcs : List Source)
    (incs : List String) (m : String)
    (hp : w.planner q = .ok qs) (hr : w.researcher qs = .ok (ctx, srcs))
    (hctx : ctx ≠ "") (hwi : w.writerInit q ctx = none)
    (hws : w.writerStream q ctx = (incs, some m)) :
    run_agent_workflow w q =
      [⟨.trace, "Phase 1: Planning..."⟩,
       ⟨.trace, "Phase 2: Searching..."⟩,
       ⟨.sources, w.dumps srcs⟩,
       ⟨.trace, "Phase 3: Reading and Writing..."⟩] ++
      (incs.filter (fun s => s != "")).map (fun c => Event.mk .chunk c) ++
      [⟨.chunk, "\n\n[Error] An error occurred while generating the answer: " ++ m⟩,
       ⟨.done, "Stream complete."⟩] ∧
    (run_agent_workflow w q).countP isErrorEv = 0 ∧
    (run_agent_workflow w q).getLast? = some ⟨.done, "Stream complete."⟩ := by
  have heq := workflow_eq_writer w q qs ctx srcs hp hr hctx hwi
  rw [hws] at heq
  simp only [run_writer, List.map_append] at heq
  have heq2 : run_agent_workflow w q =
      [⟨.trace, "Phase 1: Planning..."⟩,
       ⟨.trace, "Phase 2: Searching..."⟩,
       ⟨.sources, w.dumps srcs⟩,
       ⟨.trace, "Phase 3: Reading and Writing..."⟩] ++
      (incs.filter (fun s => s != "")).map (fun c => Event.mk .chunk c) ++
      [⟨.chunk, "\n\n[Error] An error occurred while generating the answer: " ++ m⟩,
       ⟨.done, "Stream complete."⟩] := by
    rw [heq]
    simp [List.append_assoc]
  refine ⟨heq2, ?_, ?_⟩
  · rw [heq2, List.countP_append, List.countP_append,
      countP_chunkMap isErrorEv (fun _ => rfl)]
    simp [List.countP_cons, isErrorEv]
  · rw [heq2, List.append_assoc, List.getLast?_append]
    simp [List.getLast?_cons_cons]

/-- Witness for the amended C4 on the concrete mid-stream-failure run. -/
theorem C4_amended_witness :
    (run_agent_workflow midStreamFailWorld "q").countP isErrorEv = 0 ∧
    (run_agent_workflow midStreamFailWorld "q").getLast? =
      some ⟨.done, "Stream complete."⟩ :=
  have h := C4_amended_writer_failure midStreamFailWorld "q"
    (JValue.arr [JValue.str "q1"]) "some context"
    [⟨1, "https://e.com", "T", "C"⟩] ["chunk one ", "chunk two "] "stream reset"
    rfl rfl (by decide) rfl rfl
  ⟨h.2.1, h.2.2⟩

/-- A run whose provider yields one raw increment `"[1]"`. -/
def rawChunkWorld : WorkflowWorld where
  planner := fun _ => .ok (JValue.arr [JValue.str "q1"])
  researcher := fun _ => .ok ("some context", [⟨1, "https://e.com", "T", "C"⟩])
  dumps := fun _ => "[]"
  writerInit := fun _ _ => none
  writerStream := fun _ _ => (["[1]"], none)

/-- C2 counterexample: the orchestrator emits the provider increment `"[1]"`
verbatim as a chunk payload, while `clean_citations "[1]"` is
`"[1](#citation-1)"` — `clean_citations` is never applied on the streaming
path (it is defined in `citation_utils.py` but called nowhere in the
service). -/
theorem C2_counterexample :
    (Event.mk .chunk "[1]") ∈ run_agent_workflow rawChunkWorld "q" ∧
    clean_citations "[1]" = "[1](#citation-1)" ∧
    ("[1](#citation-1)" : String) ≠ "[1]" := by
  refine ⟨by decide, by decide, by decide⟩

/-- C2 amended: on a normally completing writer run, every chunk event's
payload is the provider's text increment **unchanged** (empty increments
are skipped); the Citation Normalizer is not applied to any chunk. -/
theorem C2_amended_raw_chunk_payloads (w : WorkflowWorld) (q : String)
    (qs : JValue) (ctx : String) (srcs : List Source) (incs : List String)
    (hp : w.planner q = .ok qs) (hr : w.researcher qs = .ok (ctx, srcs))
    (hctx : ctx ≠ "") (hwi : w.writerInit q ctx = none)
    (hws : w.writerStream q ctx = (incs, none)) :
    run_agent_workflow w q =
      [⟨.trace, "Phase 1: Planning..."⟩,
       ⟨.trace, "Phase 2: Searching..."⟩,
       ⟨.sources, w.dumps srcs⟩,
       ⟨.trace, "Phase 3: Reading and Writing..."⟩] ++
      (incs.filter (fun s => s != "")).map (fun c => Event.mk .chunk c) ++
      [⟨.done, "Stream complete."⟩] := by
  have heq := workflow_eq_writer w q qs ctx srcs hp hr hctx hwi
  rw [hws] at heq
  simp only [run_writer, List.append_nil] at heq
  exact heq

/-- Witness for the amended C2: the `"[1]"` increment is emitted raw. -/
theorem C2_amended_witness :
    run_agent_workflow rawChunkWorld "q" =
      [⟨.trace, "Phase 1: Planning..."⟩,
       ⟨.trace, "Phase 2: Searching..."⟩,
       ⟨.sources, "[]"⟩,
       ⟨.trace, "Phase 3: Reading and Writing..."⟩,
       ⟨.chunk, "[1]"⟩,
       ⟨.done, "Stream complete."⟩] := by
  rw [C2_amended_raw_chunk_payloads rawChunkWorld "q"
    (JValue.arr [JValue.str "q1"]) "some context"
    [⟨1, "https://e.com", "T", "C"⟩] ["[1]"] rfl rfl (by decide) rfl rfl]
  rfl

/-! ### C6: the planner's fallback -/

/-- One point of `json.loads`'s behavior, as Python defines it:
`json.loads("42")` is the number `42` (and nothing else is needed for the
counterexample). -/
def loadsOnNum : String → Option JValue :=
  fun s => if s = "42" then some (JValue.num 42) else none

/-- C6 counterexample: when the provider's (fence-stripped) text is `"42"`
— valid JSON that is not a list of strings — `json.loads` succeeds and
`_run_planner` returns the parsed number unchanged: there is no shape
validation, refuting "plan ... always returns a non-empty sequence of
strings ... or it parses to anything other than a list of strings, plan
returns exactly [query]". -/
theorem C6_counterexample :
    run_planner loadsOnNum (.ok "42") "What is six times seven" =
      JValue.num 42 ∧
    isStrList (JValue.num 42) = false ∧
    JValue.num 42 ≠ JValue.arr [JValue.str "What is six times seven"] :=
  ⟨rfl, rfl, fun h => JValue.noConfusion h⟩

/-- C6 amended: `plan` never propagates an error (it is total over the
provider outcome), and it returns `[query]` exactly on a provider failure
or a JSON parse failure; any successfully parsed value — of whatever
shape — is returned as-is, unvalidated. -/
theorem C6_amended_planner_fallback (loads : String → Option JValue)
    (resp : Except String String) (query : String) :
    (∀ e, resp = .error e →
      run_planner loads resp query = JValue.arr [JValue.str query]) ∧
    (∀ t, resp = .ok t → loads (stripFences t) = none →
      run_planner loads resp query = JValue.arr [JValue.str query]) ∧
    (∀ t v, resp = .ok t → loads (stripFences t) = some v →
      run_planner loads resp query = v) := by
  refine ⟨?_, ?_, ?_⟩
  · intro e he
    simp [run_planner, he]
  · intro t ht hl
    simp [run_planner, ht, hl]
  · intro t v ht hl
    simp [run_planner, ht, hl]

/-- Witness for the amended C6: a parsed non-list value is returned
verbatim. -/
theorem C6_amended_witness :
    run_planner loadsOnNum (.ok "42") "another query" = JValue.num 42 :=
  (C6_amended_planner_fallback loadsOnNum (.ok "42") "another query").2.2
    "42" (JValue.num 42) rfl rfl

/-! ### C7: sub-search failure containment -/

theorem map_sags_set :
    ∀ (outcomes : List (Except String (List Snippet))) (i : Nat) (e : String),
      outcomes[i]? = some (.error e) →
      (outcomes.set i (.ok [])).map search_and_get_snippets =
        outcomes.map search_and_get_snippets := by
  intro outcomes
  induction outcomes with
  | nil => intro i e h; simp at h
  | cons o rest ih =>
    intro i e h
    cases i with
    | zero =>
      have ho : o = .error e := by simpa using h
      subst ho
      simp [List.set, search_and_get_snippets]
    | succ i =>
      have h2 : rest[i]? = some (.error e) := by simpa using h
      simp [List.set, ih i e h2]

/-- C7: a failing sub-search call contributes an empty snippet list and the
aggregation result is the same as if that query had returned no results —
the other sub-queries' contributions are unchanged and nothing is
propagated (modelled `search_and_get_snippets` per the spec's
partial-failure policy, matching the in-repo `search_and_scrape`). -/
theorem C7_sub_search_failure
    (outcomes : List (Except String (List Snippet))) (i : Nat) (e : String)
    (h : outcomes[i]? = some (.error e)) :
    search_and_get_snippets (.error e) = [] ∧
    run_researcher outcomes = run_researcher (outcomes.set i (.ok [])) := by
  refine ⟨rfl, ?_⟩
  rw [run_researcher, run_researcher, map_sags_set outcomes i e h]

/-- Witness for C7 at a concrete two-query run whose second search fails. -/
theorem C7_witness :
    run_researcher [Except.ok [⟨"https://a.com", "t", "c"⟩], Except.error "boom"] =
      run_researcher [Except.ok [⟨"https://a.com", "t", "c"⟩], Except.ok []] :=
  (C7_sub_search_failure
    [Except.ok [⟨"https://a.com", "t", "c"⟩], Except.error "boom"] 1 "boom"
    rfl).2

/-! ### C5: the Evidence Aggregator -/

/-- First-occurrence-wins deduplication, specified independently of the
implementation's seen-set: keep the head, delete its later duplicates,
recurse. -/
def firstWins : List String → List String
  | [] => []
  | u :: rest => u :: firstWins (rest.filter (fun v => v != u))
termination_by l => l.length
decreasing_by
  simp only [List.length_cons]
  exact Nat.lt_succ_of_le (List.length_filter_le _ _)

theorem firstWins_nil : firstWins [] = [] := by
  simp [firstWins]

theorem firstWins_cons (u : String) (rest : List String) :
    firstWins (u :: rest) = u :: firstWins (rest.filter (fun v => v != u)) := by
  simp [firstWins]

/-- The snippet's url has not been seen yet. -/
def notSeen (seen : List String) (r : Snippet) : Bool :=
  !(decide (r.url ∈ seen))

/-- Narrowing the seen set by one url is the same as deleting that url from
the deduplication input. -/
theorem filter_url_seen_cons :
    ∀ (rest : List Snippet) (u : String) (seen : List String),
      ((rest.filter (notSeen (u :: seen))).map (fun r => r.url)) =
        (((rest.filter (notSeen seen)).map (fun r => r.url)).filter
          (fun v => v != u)) := by
  intro rest u seen
  induction rest with
  | nil => rfl
  | cons r rest ih =>
    rw [List.filter_cons, List.filter_cons]
    by_cases hu : r.url = u
    · have h1 : notSeen (u :: seen) r = false := by simp [notSeen, hu]
      rw [if_neg (by simp [h1])]
      by_cases hs : r.url ∈ seen
      · have h2 : notSeen seen r = false := by simp [notSeen, hs]
        rw [if_neg (by simp [h2]), ih]
      · have h2 : notSeen seen r = true := by simp [notSeen, hs]
        rw [if_pos h2, List.map_cons, List.filter_cons,
          if_neg (by simp [hu]), ih]
    · by_cases hs : r.url ∈ seen
      · have h1 : notSeen (u :: seen) r = false := by simp [notSeen, hs]
        have h2 : notSeen seen r = false := by simp [notSeen, hs]
        rw [if_neg (by simp [h1]), if_neg (by simp [h2]), ih]
      · have h1 : notSeen (u :: seen) r = true := by simp [notSeen, hu, hs]
        have h2 : notSeen seen r = true := by simp [notSeen, hs]
        rw [if_pos h1, if_pos h2, List.map_cons, List.map_cons,
          List.filter_cons, if_pos (by simp [hu]), ih]

/-- The urls of the aggregation's sources are the first-wins deduplication
of the not-yet-seen snippet urls, in flattened order. -/
theorem aggregateLoop_urls : ∀ (n : Nat) (snippets : List Snippet)
    (seen : List String) (counter : Nat), snippets.length ≤ n →
    (aggregateLoop snippets seen counter).2.map (fun s => s.url) =
      firstWins ((snippets.filter (notSeen seen)).map (fun r => r.url)) := by
  intro n
  induction n with
  | zero =>
    intro snippets seen counter h
    have : snippets = [] := List.eq_nil_of_length_eq_zero (Nat.le_zero.mp h)
    subst this
    simp [aggregateLoop, firstWins_nil]
  | succ n ih =>
    intro snippets seen counter h
    cases snippets with
    | nil => simp [aggregateLoop, firstWins_nil]
    | cons res rest =>
      have hlen : rest.length ≤ n := by simpa using h
      by_cases hs : res.url ∈ seen
      · have h1 : notSeen seen res = false := by simp [notSeen, hs]
        simp only [aggregateLoop, if_pos hs]
        rw [ih rest seen counter hlen, List.filter_cons, if_neg (by simp [h1])]
      · have h1 : notSeen seen res = true := by simp [notSeen, hs]
        simp only [aggregateLoop, if_neg hs]
        rw [List.map_cons, ih rest (res.url :: seen) (counter + 1) hlen,
          filter_url_seen_cons rest res.url seen, List.filter_cons, if_pos h1,
          List.map_cons, firstWins_cons]

/-- The ids of the aggregation's sources are dense, starting at the counter
value. -/
theorem aggregateLoop_ids : ∀ (n : Nat) (snippets : List Snippet)
    (seen : List String) (counter : Nat), snippets.length ≤ n →
    (aggregateLoop snippets seen counter).2.map (fun s => s.id) =
      List.range' counter (aggregateLoop snippets seen counter).2.length := by
  intro n
  induction n with
  | zero =>
    intro snippets seen counter h
    have : snippets = [] := List.eq_nil_of_length_eq_zero (Nat.le_zero.mp h)
    subst this
    simp [aggregateLoop]
  | succ n ih =>
    intro snippets seen counter h
    cases snippets with
    | nil => simp [aggregateLoop]
    | cons res rest =>
      have hlen : rest.length ≤ n := by simpa using h
      by_cases hs : res.url ∈ seen
      · simp only [aggregateLoop, if_pos hs]
        exact ih rest seen counter hlen
      · simp only [aggregateLoop, if_neg hs]
        rw [List.map_cons, ih rest (res.url :: seen) (counter + 1) hlen,
          List.length_cons, List.range'_succ]

/-- C5: the Evidence Aggregator flattens the per-query result lists in
query order, deduplicates by url with the first occurrence winning, assigns
dense 1-based ids in surviving order, yields exactly
`[{1,a},{2,b},{3,c}]` on the spec's worked example, and returns
`("", [])` when no snippets survive. -/
theorem C5_evidence_aggregator :
    (∀ rls : List (List Snippet),
      (run_researcher_from_results rls).2.map (fun s => s.url) =
        firstWins (rls.flatten.map (fun r => r.url)) ∧
      (run_researcher_from_results rls).2.map (fun s => s.id) =
        List.range' 1 (run_researcher_from_results rls).2.length) ∧
    (∀ rls : List (List Snippet), (∀ l ∈ rls, l = []) →
      run_researcher_from_results rls = ("", [])) ∧
    (run_researcher_from_results
        [[⟨"a", "ta", "ca"⟩, ⟨"b", "tb", "cb"⟩],
         [⟨"b", "tb2", "cb2"⟩, ⟨"c", "tc", "cc"⟩]]).2 =
      [⟨1, "a", "ta", "ca"⟩, ⟨2, "b", "tb", "cb"⟩, ⟨3, "c", "tc", "cc"⟩] := by
  refine ⟨?_, ?_, ?_⟩
  · intro rls
    constructor
    · rw [run_researcher_from_results,
        aggregateLoop_urls rls.flatten.length _ [] 1 (Nat.le_refl _)]
      have hid : rls.flatten.filter (notSeen []) = rls.flatten :=
        List.filter_eq_self.mpr (fun a _ => by simp [notSeen])
      rw [hid]
    · exact aggregateLoop_ids rls.flatten.length _ [] 1 (Nat.le_refl _)
  · intro rls h
    rw [run_researcher_from_results, List.flatten_eq_nil_iff.mpr h]
    rfl
  · rfl

/-- Witness for C5's no-surviving-snippets case. -/
theorem C5_witness : run_researcher_from_results [[], []] = ("", []) :=
  C5_evidence_aggregator.2.1 [[], []] (by simp)

